import Mathlib

/-!
# RegresionLab — verification of the equation-fitting core

A shallow embedding of the fitting core of the RegresionLab repository:
the expression compiler (`CustomFunctionEvaluator`), the math-token
rewriting driven by `MATH_FUNCTION_REPLACEMENTS` (src/config/constants.py),
the `generic_fit` precondition phase, the trigonometric parameter
estimators, the report-text layout consumed by
`_split_parameters_text` (src/streamlit_app/sections/results.py),
the equation registry lookup, the numeric-data validator and the
workflow controller's `apply_all_equations` loop.

Numbers are embedded as exact rationals (`ℚ`); angular quantities
(frequency, phase) are carried in units of π so that they stay rational.
Python exceptions become explicit error values via `Except`.
-/

namespace RegresionLab

/-! ## Character classes (Python `\w`, identifier syntax) -/

/-- A regex word character (`\w`): ASCII letter, digit, or underscore. -/
def isWordChar (c : Char) : Bool := c.isAlphanum || c = '_'

/-- A character that may start an identifier: letter or underscore. -/
def isIdentStart (c : Char) : Bool := c.isAlpha || c = '_'

/-- Modelled from the spec (§4.1): a syntactically valid parameter
identifier — letters/digits/underscore, not starting with a digit,
non-empty (the source module `utils/validators.py` is not under src/). -/
def isValidIdentifier (s : String) : Bool :=
  match s.toList with
  | [] => false
  | c :: cs => isIdentStart c && cs.all isWordChar

/-! ## Exception taxonomy (spec §7; `utils/exceptions.py` not under src/) -/

/-- Modelled from the spec: `ValidationError` — malformed input to the
expression compiler. -/
inductive ValidationError : Type where
  | emptyFormula : ValidationError
  | invalidParameterName (name : String) : ValidationError
  | emptyParameterList : ValidationError
  | duplicateParameterNames : ValidationError
deriving DecidableEq, Repr

/-- Modelled from the spec: `EquationError` — a compiled model invoked
with the wrong number of positional parameters, identifying the
expected vs received count. -/
structure EquationError : Type where
  expected : Nat
  received : Nat
deriving DecidableEq, Repr

/-- Modelled from the spec: `FittingError` — insufficient data for the
requested model or optimizer failure. -/
inductive FittingError : Type where
  | missingColumn (name : String) : FittingError
  | emptyColumn (name : String) : FittingError
  | lengthMismatch : FittingError
deriving DecidableEq, Repr

/-- Modelled from the spec: `DataValidationError` — dataset missing
required columns or holding non-numeric / non-finite values. -/
inductive DataValidationError : Type where
  | nonNumeric (column : String) : DataValidationError
  | containsNaN (column : String) : DataValidationError
  | containsInf (column : String) : DataValidationError
deriving DecidableEq, Repr

/-! ## Expression AST and evaluation

Modelled from the spec (§4.1): the compiler turns a formula into a
callable `f(x, *params)`.  Python's expression parser is not itself
modelled; the parsed algebraic expression is represented directly as an
AST over the independent variable `x` and the declared parameter names,
and evaluation over exact rationals replaces NumPy float evaluation. -/

inductive Expr : Type where
  | num (q : ℚ) : Expr
  | var (name : String) : Expr
  | add (a b : Expr) : Expr
  | sub (a b : Expr) : Expr
  | mul (a b : Expr) : Expr
  | neg (a : Expr) : Expr
  | pow (a : Expr) (n : Nat) : Expr
deriving DecidableEq, Repr

/-- Evaluate an expression under an environment binding names to values. -/
def evalExpr (env : String → ℚ) : Expr → ℚ
  | .num q => q
  | .var n => env n
  | .add a b => evalExpr env a + evalExpr env b
  | .sub a b => evalExpr env a - evalExpr env b
  | .mul a b => evalExpr env a * evalExpr env b
  | .neg a => -(evalExpr env a)
  | .pow a n => (evalExpr env a) ^ n

/-- Syntactic substitution of closed values for free variables: every
variable bound by `σv` is replaced by its numeric literal. -/
def substExpr (σv : String → Option ℚ) : Expr → Expr
  | .num q => .num q
  | .var n => match σv n with
      | some q => .num q
      | none => .var n
  | .add a b => .add (substExpr σv a) (substExpr σv b)
  | .sub a b => .sub (substExpr σv a) (substExpr σv b)
  | .mul a b => .mul (substExpr σv a) (substExpr σv b)
  | .neg a => .neg (substExpr σv a)
  | .pow a n => .pow (substExpr σv a) n

/-- Look up a parameter name in the positionally-zipped binding list. -/
def lookupParam (names : List String) (values : List ℚ) (n : String) : Option ℚ :=
  match names, values with
  | [], _ => none
  | _, [] => none
  | m :: names', v :: values' =>
      if n = m then some v else lookupParam names' values' n

/-- The binding used when the compiled callable `f(x, *params)` runs:
`x` maps to the current array element, each parameter name to its
positional value (unbound names read as 0, mirroring that a valid
formula only mentions `x` and declared parameters). -/
def callEnv (names : List String) (values : List ℚ) (x : ℚ) : String → ℚ :=
  fun n => if n = "x" then x else (lookupParam names values n).getD 0

/-- The substitution performed by "directly substituting x and the
parameter values into the formula": `x` and every declared parameter
become numeric literals in the expression itself. -/
def directSubstitution (names : List String) (values : List ℚ) (x : ℚ) (e : Expr) : Expr :=
  substExpr (fun n => if n = "x" then some x else lookupParam names values n) e

/-! ## Word-boundary token rewriting (`MATH_FUNCTION_REPLACEMENTS`)

`src/config/constants.py` defines the regex table
`MATH_FUNCTION_REPLACEMENTS : dict[str, str]` whose keys are patterns
of the form `\bname\b`.  The expression compiler applies `re.sub` with
each pattern in table order over the formula string.  Strings are
embedded as `List Char`; `subWordAux` is a faithful scanner for one
`re.sub(r'\bk\b', r, s)` pass (keys consist of word characters only). -/

/-- `canMatch ks s` holds when `s` starts with `ks` and the next
character after the match (if any) is a non-word character — the
trailing `\b` of the pattern. -/
def canMatch : List Char → List Char → Bool
  | [], [] => true
  | [], c :: _ => !(isWordChar c)
  | _ :: _, [] => false
  | a :: k, b :: s => a = b && canMatch k s

/-- One `re.sub(r'\bk\b', r, s)` pass for a word-only key `k0 :: ks`.
The `Nat` argument counts already-matched key characters still to be
consumed; the `Bool` records whether the previous character was a word
character (no `\b` boundary at the current position). -/
def subWordAux (k0 : Char) (ks r : List Char) : Nat → Bool → List Char → List Char
  | _, _, [] => []
  | n + 1, _, _ :: s => subWordAux k0 ks r n true s
  | 0, true, c :: s => c :: subWordAux k0 ks r 0 (isWordChar c) s
  | 0, false, c :: s =>
      if c = k0 && canMatch ks s then r ++ subWordAux k0 ks r ks.length true s
      else c :: subWordAux k0 ks r 0 (isWordChar c) s

/-- `re.sub(r'\bkey\b', repl, s)` on character lists. -/
def subWord (key repl : List Char) (s : List Char) : List Char :=
  match key with
  | [] => s
  | k0 :: ks => subWordAux k0 ks repl 0 false s

/-- The replacement table of `src/config/constants.py` (`MATH_FUNCTION_REPLACEMENTS`),
with the `\b` markers of each regex key made implicit (they are realised
by `subWord`'s boundary matching). -/
def MATH_FUNCTION_REPLACEMENTS : List (List Char × List Char) :=
  [("ln".toList, "np.log".toList),
   ("sin".toList, "np.sin".toList),
   ("cos".toList, "np.cos".toList),
   ("tan".toList, "np.tan".toList),
   ("sinh".toList, "np.sinh".toList),
   ("cosh".toList, "np.cosh".toList),
   ("tanh".toList, "np.tanh".toList),
   ("exp".toList, "np.exp".toList),
   ("sqrt".toList, "np.sqrt".toList),
   ("abs".toList, "np.abs".toList),
   ("pi".toList, "np.pi".toList),
   ("e".toList, "np.e".toList)]

/-- Modelled from the spec (§4.1): the formula-preparation step of
`CustomFunctionEvaluator` (`fitting/custom_function_evaluator.py` is not
under src/) applies `re.sub` for each pattern of
`MATH_FUNCTION_REPLACEMENTS`, in table order, to the formula string. -/
def prepare_formula (s : String) : String :=
  String.mk (MATH_FUNCTION_REPLACEMENTS.foldl (fun t p => subWord p.1 p.2 t) s.toList)

/-! ### Specification-side description: single-pass whole-token mapping -/

/-- First-match lookup of a whole word token in the replacement table;
an unlisted token is left unchanged. -/
def lookupRepl (table : List (List Char × List Char)) (w : List Char) : List Char :=
  match table with
  | [] => w
  | (k, r) :: rest => if w = k then r else lookupRepl rest w

/-- Emit an accumulated word token (held in reverse) through the table. -/
def flushToken (table : List (List Char × List Char)) (acc : List Char) : List Char :=
  match acc with
  | [] => []
  | _ => lookupRepl table acc.reverse

/-- Single left-to-right pass mapping every maximal word-character run
through `lookupRepl` and copying separator characters unchanged (`acc`
holds the current run in reverse). -/
def mapTokensGo (table : List (List Char × List Char)) (acc : List Char) :
    List Char → List Char
  | [] => flushToken table acc
  | c :: s =>
      if isWordChar c then mapTokensGo table (c :: acc) s
      else flushToken table acc ++ c :: mapTokensGo table [] s

/-- The claim's reading of the rewriting: every whole token (maximal
word-character run) equal to a math-notation name is replaced by its
numeric-library equivalent, and nothing inside a longer identifier is
touched. -/
def mapTokens (table : List (List Char × List Char)) (s : List Char) : List Char :=
  mapTokensGo table [] s

/-- A string position at which a `\b` boundary precedes: the string is
exhausted or continues with a non-word character. -/
def boundary : List Char → Bool
  | [] => true
  | c :: _ => !(isWordChar c)

/-- The side conditions under which sequential `re.sub` passes coincide
with one token-wise pass: every key is a non-empty word-character run
and every replacement string is left fixed by the remaining table. -/
def goodTable : List (List Char × List Char) → Bool
  | [] => true
  | (k, r) :: tb =>
      !k.isEmpty && k.all isWordChar && (mapTokens tb r == r) && goodTable tb

/-! ## Python string primitives used by the fitting core -/

/-- Python `str.strip()` on character lists: drop whitespace from both
ends. -/
def pyStrip (s : List Char) : List Char :=
  ((s.dropWhile Char.isWhitespace).reverse.dropWhile Char.isWhitespace).reverse

/-- Python `str.split("\n")` on character lists. -/
def splitNl : List Char → List (List Char)
  | [] => [[]]
  | c :: s =>
      if c = '\n' then [] :: splitNl s
      else
        match splitNl s with
        | [] => [[c]]
        | l :: ls => (c :: l) :: ls

/-- Python `"\n".join(...)` on character lists. -/
def joinNl : List (List Char) → List Char
  | [] => []
  | [l] => l
  | l :: ls => l ++ '\n' :: joinNl ls

/-- Python `pat in s` (substring containment) on character lists. -/
def containsSub (pat : List Char) : List Char → Bool
  | [] => pat.isEmpty
  | c :: s => pat.isPrefixOf (c :: s) || containsSub pat s

/-! ## CustomFunctionEvaluator (spec §4.1)

Modelled from the spec: `fitting/custom_function_evaluator.py` is not
under src/; construction validates the formula and parameter names
(fail fast, `ValidationError`), retains the user's original formula
next to the rewritten `equation_str`, and produces a callable
`f(x, *params)` that checks the parameter count at call time
(`EquationError`).  The parsed algebraic expression is carried as an
explicit AST alongside the formula text, since Python's parser itself
is not modelled. -/

structure CustomFunctionEvaluator where
  original_equation_str : String
  equation_str : String
  equation : Expr
  parameter_names : List String
deriving DecidableEq, Repr

/-- Modelled from the spec (§4.1): `CustomFunctionEvaluator.__init__` —
validation happens before any parsing or compilation; the retained
`equation_str` is the token-rewritten formula. -/
def mkCustomFunctionEvaluator (formula : String) (equation : Expr)
    (names : List String) : Except ValidationError CustomFunctionEvaluator :=
  if pyStrip formula.toList = [] then .error .emptyFormula
  else if names = [] then .error .emptyParameterList
  else
    match names.find? (fun n => !(isValidIdentifier n)) with
    | some bad => .error (.invalidParameterName bad)
    | none =>
        if names.Nodup then
          .ok { original_equation_str := formula
                equation_str := prepare_formula formula
                equation := equation
                parameter_names := names }
        else .error .duplicateParameterNames

/-- Modelled from the spec (§4.1): the compiled callable `f(x, *params)`
returned by `get_function` — wrong parameter count fails with
`EquationError` identifying expected vs received; otherwise the formula
is evaluated elementwise over the array `x`. -/
def CustomFunctionEvaluator.get_function (ev : CustomFunctionEvaluator)
    (x : List ℚ) (params : List ℚ) : Except EquationError (List ℚ) :=
  if params.length = ev.parameter_names.length then
    .ok (x.map (fun xi => evalExpr (callEnv ev.parameter_names params xi) ev.equation))
  else
    .error ⟨ev.parameter_names.length, params.length⟩

/-- The AST of the formula `"a*x + b"`. -/
def linearExpr : Expr := .add (.mul (.var "a") (.var "x")) (.var "b")

/-- The evaluator that `CustomFunctionEvaluator("a*x + b", ["a", "b"])`
constructs. -/
def linearEvaluator : CustomFunctionEvaluator :=
  { original_equation_str := "a*x + b"
    equation_str := prepare_formula "a*x + b"
    equation := linearExpr
    parameter_names := ["a", "b"] }

/-! ## Numeral rendering

A fuel-driven decimal renderer for naturals and an exact renderer for
rationals; both produce characters from the safe set
`{digits, '-', '/'}` (the fitting core's `format_parameter` renders
floats — here numbers are exact rationals, and only the character set
of the rendering matters to the layout claims). -/

/-- Decimal digits of `n`, most significant first (`fuel`-driven so the
definition is structurally recursive). -/
def natCharsAux : Nat → Nat → List Char
  | 0, _ => []
  | fuel + 1, n =>
      if n < 10 then [Nat.digitChar n]
      else natCharsAux fuel (n / 10) ++ [Nat.digitChar (n % 10)]

/-- Decimal rendering of a natural number. -/
def natChars (n : Nat) : List Char := natCharsAux (n + 1) n

/-- Exact rendering of a rational: sign, numerator, and (when ≠ 1) the
denominator. -/
def ratChars (q : ℚ) : List Char :=
  (if q.num < 0 then ['-'] else []) ++ natChars q.num.natAbs ++
    (if q.den = 1 then [] else '/' :: natChars q.den)

/-! ## FitEngine report layout (spec §4.4 step 5) and its consumer -/

/-- One fitted parameter of a `FitResult`: name, value, sigma, and the
95 % confidence interval bounds. -/
structure FitParameter where
  name : String
  value : ℚ
  sigma : ℚ
  ci_low : ℚ
  ci_high : ℚ
deriving DecidableEq, Repr

/-- The five goodness-of-fit statistics of a `FitResult`. -/
structure FitStatistics where
  r_squared : ℚ
  rmse : ℚ
  chi_square : ℚ
  reduced_chi_square : ℚ
  dof : Nat
deriving DecidableEq, Repr

/-- The interleaved `name=value` / `σ(name)=sigma` lines, in parameter
order. -/
def paramValueSigmaLines (ps : List FitParameter) : List (List Char) :=
  ps.flatMap (fun p =>
    [p.name.toList ++ '=' :: ratChars p.value,
     ('σ' :: '(' :: p.name.toList) ++ ')' :: '=' :: ratChars p.sigma])

/-- The five statistics lines, in the fixed order R², RMSE, χ²,
reduced χ², dof. -/
def statisticsLines (st : FitStatistics) : List (List Char) :=
  ["R²=".toList ++ ratChars st.r_squared,
   "RMSE=".toList ++ ratChars st.rmse,
   "χ²=".toList ++ ratChars st.chi_square,
   "χ²_red=".toList ++ ratChars st.reduced_chi_square,
   "dof=".toList ++ natChars st.dof]

/-- The per-parameter 95 % confidence-interval lines, in parameter
order. -/
def ciLines (ps : List FitParameter) : List (List Char) :=
  ps.map (fun p =>
    p.name.toList ++ " IC 95%: [".toList ++ ratChars p.ci_low ++
      ", ".toList ++ ratChars p.ci_high ++ "]".toList)

/-- Modelled from the spec (§4.4 step 5): the `report_text` assembled by
`generic_fit` (`fitting/fitting_utils.py` is not under src/) — value and
sigma lines interleaved in parameter order, then exactly five statistics
lines in fixed order, then one confidence-interval line per parameter,
joined by newlines. -/
def report_text (ps : List FitParameter) (st : FitStatistics) : List Char :=
  joinNl (paramValueSigmaLines ps ++ statisticsLines st ++ ciLines ps)

/-- `_split_parameters_text` of
src/streamlit_app/sections/results.py: strip the text, split into
non-empty stripped lines, anchor on the first line containing `R²`, take
that line and the next four as the statistics block, and return every
remaining line as a parameter line. -/
def split_parameters_text (text : List Char) :
    List (List Char) × List (List Char) :=
  let lines := ((splitNl (pyStrip text)).map pyStrip).filter (fun l => !l.isEmpty)
  match lines.findIdx? (fun l => containsSub "R²".toList l) with
  | none => ([], lines)
  | some i =>
      ((lines.drop i).take 5, lines.take i ++ lines.drop (i + 5))

/-! ## generic_fit precondition phase (spec §4.4) -/

/-- A validated rectangular dataset: named numeric columns. -/
abbrev DataFrame := List (String × List ℚ)

/-- Column lookup (`name in data` / `data[name]`). -/
def getColumn (data : DataFrame) (name : String) : Option (List ℚ) :=
  match data with
  | [] => none
  | (k, col) :: rest => if k = name then some col else getColumn rest name

/-- The arrays `generic_fit` actually feeds the optimizer: data columns
plus per-axis weight columns. -/
structure FitInputs where
  xs : List ℚ
  ys : List ℚ
  ux : List ℚ
  uy : List ℚ
deriving DecidableEq, Repr

/-- Modelled from the spec (§4.4): the precondition-checking phase of
`generic_fit` (`fitting/fitting_utils.py` is not under src/): `data`
must contain the `x_name` and `y_name` columns, non-empty and of
consistent length, raising `FittingError` before any optimization;
the uncertainty columns `u<x_name>` / `u<y_name>` are optional — when
absent that axis contributes zero weight (a zero uncertainty column). -/
def genericFitValidate (data : DataFrame) (x_name y_name : String) :
    Except FittingError FitInputs :=
  match getColumn data x_name with
  | none => .error (.missingColumn x_name)
  | some xs =>
      match getColumn data y_name with
      | none => .error (.missingColumn y_name)
      | some ys =>
          if xs.isEmpty then .error (.emptyColumn x_name)
          else if ys.length ≠ xs.length then .error .lengthMismatch
          else
            .ok { xs := xs, ys := ys
                  ux := (getColumn data ("u" ++ x_name)).getD
                    (List.replicate xs.length 0)
                  uy := (getColumn data ("u" ++ y_name)).getD
                    (List.replicate ys.length 0) }

/-! ## Numeric-data validator (`utils/validators.py`, not under src/) -/

/-- A pandas cell value: a finite number, the floats `nan`/`±inf`
(numeric dtype but non-finite), or a non-numeric object. -/
inductive PyVal : Type where
  | num (q : ℚ) : PyVal
  | nan : PyVal
  | inf : PyVal
  | ninf : PyVal
  | str (s : String) : PyVal
deriving DecidableEq, Repr

/-- Numeric dtype: every float is numeric, including `nan` and `±inf`. -/
def PyVal.isNumericType : PyVal → Bool
  | .str _ => false
  | _ => true

/-- The value is the float `nan`. -/
def PyVal.isNan : PyVal → Bool
  | .nan => true
  | _ => false

/-- The value is `+inf` or `-inf`. -/
def PyVal.isInfinite : PyVal → Bool
  | .inf => true
  | .ninf => true
  | _ => false

/-- A finite number. -/
def PyVal.isFiniteNum : PyVal → Bool
  | .num _ => true
  | _ => false

/-- Modelled from the spec (§7 `DataValidationError`):
`validate_numeric_data` of `utils/validators.py` (module not under
src/), whose behaviour on non-finite values is documented by its unit
tests (src/tests/test_validators.py): a non-numeric column, a column
containing NaN, and a column containing an infinite value each raise
`DataValidationError`; finite numeric columns pass. -/
def validate_numeric_data (series : List PyVal) (column : String) :
    Except DataValidationError Unit :=
  if !(series.all PyVal.isNumericType) then .error (.nonNumeric column)
  else if series.any PyVal.isNan then .error (.containsNaN column)
  else if series.any PyVal.isInfinite then .error (.containsInf column)
  else .ok ()

/-! ## ParameterEstimator (spec §4.3; `fitting/estimators.py` not under src/)

The estimators run over exact rationals: angular quantities (frequency,
phase) are carried in units of π, and the trigonometric kernels of the
discrete spectrum are realised by fixed-degree rational approximations
(`cosQ`, `sinQ`), since the embedding replaces NumPy float arithmetic by
ℚ.  The safety claims (totality, fallback defaults, sign and range of
the outputs) do not depend on the accuracy of these kernels. -/

/-- Rational approximation of π used by the trigonometric kernels. -/
def piQ : ℚ := 355 / 113

/-- Fixed-degree rational cosine kernel. -/
def cosQ (t : ℚ) : ℚ := 1 - t ^ 2 / 2 + t ^ 4 / 24 - t ^ 6 / 720

/-- Fixed-degree rational sine kernel. -/
def sinQ (t : ℚ) : ℚ := t - t ^ 3 / 6 + t ^ 5 / 120 - t ^ 7 / 5040

/-- Maximum of a column (0 on the empty column). -/
def listMax : List ℚ → ℚ
  | [] => 0
  | c :: s => s.foldl max c

/-- Minimum of a column (0 on the empty column). -/
def listMin : List ℚ → ℚ
  | [] => 0
  | c :: s => s.foldl min c

/-- Squared magnitude of the `k`-th component of the discrete spectrum
of `ys` (real and imaginary parts through the rational kernels). -/
def spectrumMagSq (ys : List ℚ) (k : Nat) : ℚ :=
  let n : ℚ := ys.length
  let re := (ys.enum.map (fun p => p.2 * cosQ (2 * piQ * p.1 * k / n))).sum
  let im := (ys.enum.map (fun p => p.2 * sinQ (2 * piQ * p.1 * k / n))).sum
  re ^ 2 + im ^ 2

/-- Index of the dominant non-zero spectral component (searched over
`1 ≤ k ≤ N-1`, defaulting to 1). -/
def dominantIndex (ys : List ℚ) : Nat :=
  (List.range (ys.length - 1)).foldl
    (fun best j =>
      if spectrumMagSq ys best < spectrumMagSq ys (j + 1) then j + 1 else best) 1

/-- Modelled from the spec (§4.3): `estimate_trigonometric_parameters` —
amplitude is half the peak-to-peak spread, frequency (returned in units
of π) comes from the dominant spectral index via `2π·k/(N·Δx)`;
degenerate input (fewer than two points, constant `y`, or degenerate
`x` spacing) yields the fixed positive fallback defaults `(1, 1)`
instead of failing. -/
def estimate_trigonometric_parameters (x y : List ℚ) : ℚ × ℚ :=
  let n := y.length
  if n < 2 || listMax y == listMin y then (1, 1)
  else
    let amplitude := (listMax y - listMin y) / 2
    let dx := (listMax x - listMin x) / ((n : ℚ) - 1)
    if dx ≤ 0 then (amplitude, 1)
    else (amplitude, 2 * (dominantIndex y : ℚ) / ((n : ℚ) * dx))

/-- Monotone rational surrogate of `arctan` in units of π, with values
in `[-1/2, 1/2]`. -/
def atanUnitPi (t : ℚ) : ℚ := t / (2 * (1 + |t|))

/-- `atan2` in units of π: quadrant-corrected arctangent, normalized
into `[-1, 1]` (i.e. `[-π, π]`), with `atan2 0 0 = 0`. -/
def atan2UnitPi (b a : ℚ) : ℚ :=
  if 0 < a then atanUnitPi (b / a)
  else if a < 0 then
    (if 0 ≤ b then atanUnitPi (b / a) + 1 else atanUnitPi (b / a) - 1)
  else if 0 < b then 1 / 2
  else if b < 0 then -(1 / 2)
  else 0

set_option linter.unusedVariables false in
/-- Modelled from the spec (§4.3): `estimate_phase_shift` — the phase
(returned in units of π) is the argument of the complex inner product of
`y` with `exp(-i·frequency·x)`, normalized into `[-π, π]`; zero
amplitude still returns a finite phase. -/
def estimate_phase_shift (x y : List ℚ) (amplitude frequency : ℚ) : ℚ :=
  let pairs := x.zip y
  let re := (pairs.map (fun p => p.2 * cosQ (frequency * piQ * p.1))).sum
  let im := -(pairs.map (fun p => p.2 * sinQ (frequency * piQ * p.1))).sum
  atan2UnitPi im re

/-! ## EquationRegistry (spec §4.2)

`src/config/constants.py` loads the equation table from
`equations.yaml` (not under src/) and defines the exit sentinel
`EXIT_SIGNAL = 'Salir'`.  The built-in model functions
(`fitting/fitting_functions.py`, not under src/) are modelled from the
spec's built-in families (linear, quadratic, sinusoidal). -/

/-- A fitting model: `y = f(x; params)`. -/
abbrev FitModel := ℚ → List ℚ → ℚ

/-- Modelled from the spec: the linear built-in `y = m·x`. -/
def linear_function : FitModel := fun x ps => ps.getD 0 0 * x

/-- Modelled from the spec: the quadratic built-in `y = a·x² + b·x + c`. -/
def quadratic_function : FitModel := fun x ps =>
  ps.getD 0 0 * x ^ 2 + ps.getD 1 0 * x + ps.getD 2 0

/-- Modelled from the spec: the sinusoidal built-in `y = a·sin(b·x)`
(through the rational sine kernel). -/
def sin_function : FitModel := fun x ps =>
  ps.getD 0 0 * sinQ (ps.getD 1 0 * x)

/-- Signal value used to indicate the user wants to exit
(src/config/constants.py). -/
def EXIT_SIGNAL : String := "Salir"

/-- Modelled from the spec (§4.2, §6): the registry table keyed by
equation identifier (`equations.yaml` is not under src/; the identifiers
are those exercised by the tests and named by the spec). -/
def EQUATIONS : List (String × FitModel) :=
  [("linear_function", linear_function),
   ("quadratic_function", quadratic_function),
   ("sin_function", sin_function)]

/-- First-match lookup in the registry table. -/
def lookupEquation (table : List (String × FitModel)) (identifier : String) :
    Option FitModel :=
  match table with
  | [] => none
  | (k, f) :: rest =>
      if identifier = k then some f else lookupEquation rest identifier

/-- Modelled from the spec (§4.2): `get_fitting_function` — `None` (not
an error) for the exit sentinel and for any unrecognized identifier; a
callable model for every registered identifier. -/
def get_fitting_function (identifier : String) : Option FitModel :=
  if identifier = EXIT_SIGNAL then none
  else lookupEquation EQUATIONS identifier

/-! ## WorkflowController (spec §4.5; `fitting/workflow_controller.py`
not under src/) -/

/-- The positional arguments each fit invocation receives. -/
structure FitCallArgs where
  data : DataFrame
  x_name : String
  y_name : String
  plot_name : String
deriving DecidableEq, Repr

/-- Modelled from the spec (§4.5): `apply_all_equations` — for each
identifier in order, record the current equation through
`equation_setter`, obtain a fitter through `get_fitter`, and invoke it
with the dataset and the plot name `"<plot_name>_<identifier>"`;
strictly sequential, zero fits on the empty list.  The stateful
collaborators are embedded by explicit state passing over `σ`. -/
def apply_all_equations {σ : Type} (equation_setter : String → σ → σ)
    (get_fitter : σ → (FitCallArgs → σ → σ)) (equation_types : List String)
    (data : DataFrame) (x_name y_name plot_name : String) (s : σ) : σ :=
  match equation_types with
  | [] => s
  | eq_type :: rest =>
      let s1 := equation_setter eq_type s
      let fitter := get_fitter s1
      let s2 := fitter ⟨data, x_name, y_name, plot_name ++ "_" ++ eq_type⟩ s1
      apply_all_equations equation_setter get_fitter rest data x_name y_name
        plot_name s2

/-- The recording harness of
src/tests/test_workflow_controller.py (`TestApplyAllEquations`): the
current equation plus the list of recorded fit invocations, each tagged
with the equation that was current when the fitter ran. -/
structure HarnessState where
  current_equation : Option String
  fit_calls : List (Option String × FitCallArgs)
deriving DecidableEq, Repr

/-- The test's `equation_setter`: record the current equation. -/
def mockEquationSetter (eq_type : String) (s : HarnessState) : HarnessState :=
  { s with current_equation := some eq_type }

/-- The test's `get_fitter`: a fitter appending the invocation record. -/
def mockGetFitter (_ : HarnessState) : FitCallArgs → HarnessState → HarnessState :=
  fun args s => { s with fit_calls := s.fit_calls ++ [(s.current_equation, args)] }

end RegresionLab

namespace RegresionLab

/-! ## Substitution agrees with environment evaluation -/

/-- Evaluating a substituted expression equals evaluating the original
expression in the corresponding environment. -/
theorem evalExpr_substExpr (σv : String → Option ℚ) (env : String → ℚ) (e : Expr) :
    evalExpr env (substExpr σv e) =
      evalExpr (fun n => (σv n).getD (env n)) e := by
  induction e with
  | num q => rfl
  | var n =>
      simp only [substExpr]
      cases h : σv n with
      | none => simp [evalExpr, h]
      | some q => simp [evalExpr, h]
  | add a b iha ihb => simp [substExpr, evalExpr, iha, ihb]
  | sub a b iha ihb => simp [substExpr, evalExpr, iha, ihb]
  | mul a b iha ihb => simp [substExpr, evalExpr, iha, ihb]
  | neg a iha => simp [substExpr, evalExpr, iha]
  | pow a n iha => simp [substExpr, evalExpr, iha]


/-! ## Helper lemmas about construction of the evaluator -/

/-- Successful construction fixes all fields of the evaluator. -/
theorem mkCustomFunctionEvaluator_ok (formula : String) (e : Expr)
    (names : List String) (ev : CustomFunctionEvaluator)
    (hev : mkCustomFunctionEvaluator formula e names = .ok ev) :
    ev.original_equation_str = formula ∧ ev.equation_str = prepare_formula formula ∧
      ev.equation = e ∧ ev.parameter_names = names := by
  unfold mkCustomFunctionEvaluator at hev
  split at hev
  · simp at hev
  · split at hev
    · simp at hev
    · split at hev
      · simp at hev
      · split at hev
        · obtain rfl := (Except.ok.injEq _ _).mp hev
          exact ⟨rfl, rfl, rfl, rfl⟩
        · simp at hev

/-- C1: For every valid formula and list of pairwise-distinct valid
parameter names, the compiled callable, applied to a numeric array `x`
and matching parameter values, returns exactly the array obtained by
directly substituting `x` and those parameter values into the formula
and evaluating the resulting closed expression. -/
theorem compiled_function_matches_direct_substitution
    (formula : String) (e : Expr) (names : List String)
    (ev : CustomFunctionEvaluator)
    (hev : mkCustomFunctionEvaluator formula e names = .ok ev)
    (x params : List ℚ) (hlen : params.length = names.length) :
    ev.get_function x params =
      .ok (x.map (fun xi =>
        evalExpr (fun _ => 0) (directSubstitution names params xi e))) := by
  obtain ⟨-, -, heq, hpn⟩ := mkCustomFunctionEvaluator_ok formula e names ev hev
  have hsub : ∀ xi : ℚ,
      evalExpr (fun _ => 0) (directSubstitution names params xi e)
        = evalExpr (callEnv names params xi) e := by
    intro xi
    rw [directSubstitution, evalExpr_substExpr]
    congr 1
    funext n
    by_cases hx : n = "x" <;> simp [callEnv, hx]
  simp [CustomFunctionEvaluator.get_function, hpn, heq, hlen, hsub]

/-- Witness for C1 at the claim's example: compiling `"a*x + b"` with
parameters `["a", "b"]` and calling with `x = [1,2,3]`, `a = 2`, `b = 3`
yields `[5, 7, 9]`. -/
theorem compiled_function_matches_direct_substitution_witness :
    mkCustomFunctionEvaluator "a*x + b" linearExpr ["a", "b"] = .ok linearEvaluator ∧
      linearEvaluator.get_function [1, 2, 3] [2, 3] = .ok [5, 7, 9] := by
  refine ⟨rfl, ?_⟩
  have h := compiled_function_matches_direct_substitution "a*x + b" linearExpr
    ["a", "b"] linearEvaluator rfl [1, 2, 3] [2, 3] rfl
  rw [h]
  simp only [linearExpr, directSubstitution, substExpr, lookupParam, evalExpr,
    List.map]
  norm_num

/-- C6: construction of the evaluator succeeds exactly when the formula
is non-empty after trimming and the parameter names are a non-empty list
of pairwise-distinct valid identifiers; every violation (empty or
whitespace-only formula, non-identifier name, duplicate names) is
rejected with a `ValidationError` at construction time. -/
theorem evaluator_construction_validates
    (formula : String) (e : Expr) (names : List String) :
    (∃ ev, mkCustomFunctionEvaluator formula e names = .ok ev) ↔
      (pyStrip formula.toList ≠ [] ∧ names ≠ [] ∧
        (∀ n ∈ names, isValidIdentifier n = true) ∧ names.Nodup) := by
  by_cases h1 : pyStrip formula.data = []
  · simp [mkCustomFunctionEvaluator, String.toList, h1]
  · by_cases h2 : names = []
    · simp [mkCustomFunctionEvaluator, String.toList, h1, h2]
    · cases hf : names.find? (fun n => !(isValidIdentifier n)) with
      | some bad =>
          have hbad := List.find?_some hf
          have hmem := List.mem_of_find?_eq_some hf
          rw [Bool.not_eq_true'] at hbad
          constructor
          · rintro ⟨ev, hev⟩
            simp [mkCustomFunctionEvaluator, String.toList, h1, h2, hf] at hev
          · rintro ⟨-, -, hall, -⟩
            exact absurd (hall bad hmem) (by simp [hbad])
      | none =>
          have hall : ∀ n ∈ names, isValidIdentifier n = true := by
            intro n hn
            have := List.find?_eq_none.mp hf n hn
            simpa using this
          by_cases h3 : names.Nodup
          · constructor
            · exact fun _ => ⟨h1, h2, hall, h3⟩
            · intro _
              refine ⟨CustomFunctionEvaluator.mk formula (prepare_formula formula)
                e names, ?_⟩
              simp [mkCustomFunctionEvaluator, String.toList, h1, h2, hf, h3]
          · simp [mkCustomFunctionEvaluator, String.toList, h1, h2, hf, h3]

/-- C7: after successful construction with `n` declared parameters, the
compiled callable raises `EquationError` at call time exactly when the
number of supplied parameter values differs from `n`, identifying the
expected and received counts. -/
theorem wrong_parameter_count_raises_equation_error
    (formula : String) (e : Expr) (names : List String)
    (ev : CustomFunctionEvaluator)
    (hev : mkCustomFunctionEvaluator formula e names = .ok ev)
    (x params : List ℚ) :
    (params.length ≠ names.length →
      ev.get_function x params = .error ⟨names.length, params.length⟩) ∧
    (params.length = names.length →
      ∃ ys, ev.get_function x params = .ok ys) := by
  obtain ⟨-, -, -, hpn⟩ := mkCustomFunctionEvaluator_ok formula e names ev hev
  constructor
  · intro hne
    simp [CustomFunctionEvaluator.get_function, hpn, hne]
  · intro heq
    refine ⟨x.map (fun xi => evalExpr (callEnv names params xi) ev.equation), ?_⟩
    simp [CustomFunctionEvaluator.get_function, hpn, heq]

/-- Witness for C7: `"a*x + b"` compiled with `["a", "b"]`, called with
a single parameter value, fails with `EquationError` expecting 2 and
receiving 1; called with two values it does not raise. -/
theorem wrong_parameter_count_raises_equation_error_witness :
    linearEvaluator.get_function [1, 2, 3] [2] = .error ⟨2, 1⟩ ∧
      ∃ ys, linearEvaluator.get_function [1, 2, 3] [2, 3] = .ok ys :=
  ⟨(wrong_parameter_count_raises_equation_error "a*x + b" linearExpr ["a", "b"]
      linearEvaluator rfl [1, 2, 3] [2]).1 (by decide),
   (wrong_parameter_count_raises_equation_error "a*x + b" linearExpr ["a", "b"]
      linearEvaluator rfl [1, 2, 3] [2, 3]).2 rfl⟩


/-- C2: `generic_fit`'s precondition check raises `FittingError` for a
dataset lacking the `x_name` or `y_name` column, while a dataset that
has both data columns but lacks the uncertainty columns `u<x_name>` and
`u<y_name>` is accepted, with both axes given an all-zero (unweighted)
uncertainty column. -/
theorem generic_fit_missing_columns_vs_missing_uncertainty
    (data : DataFrame) (x_name y_name : String) :
    (getColumn data x_name = none ∨ getColumn data y_name = none →
      ∃ err, genericFitValidate data x_name y_name = .error err) ∧
    (∀ xs ys, getColumn data x_name = some xs → getColumn data y_name = some ys →
      xs ≠ [] → ys.length = xs.length →
      getColumn data ("u" ++ x_name) = none →
      getColumn data ("u" ++ y_name) = none →
      genericFitValidate data x_name y_name =
        .ok ⟨xs, ys, List.replicate xs.length 0, List.replicate ys.length 0⟩) := by
  constructor
  · intro hmiss
    cases hx : getColumn data x_name with
    | none => exact ⟨.missingColumn x_name, by simp [genericFitValidate, hx]⟩
    | some xs =>
        cases hy : getColumn data y_name with
        | none => exact ⟨.missingColumn y_name, by simp [genericFitValidate, hx, hy]⟩
        | some ys =>
            rcases hmiss with h | h
            · rw [hx] at h; cases h
            · rw [hy] at h; cases h
  · intro xs ys hx hy hne hlen hux huy
    have hxe : xs.isEmpty = false := by
      cases xs with
      | nil => exact absurd rfl hne
      | cons a l => rfl
    have hlen2 : ¬ ys.length ≠ xs.length := by simp [hlen]
    simp [genericFitValidate, hx, hy, hxe, hlen2, hux, huy, hlen]

/-- Witness for C2: a dataset with only an `x` column is rejected with
`FittingError`; a dataset with `x` and `y` but no `ux`/`uy` columns is
accepted with zero weight on both axes. -/
theorem generic_fit_missing_columns_vs_missing_uncertainty_witness :
    (∃ err, genericFitValidate [("x", [1, 2])] "x" "y" = .error err) ∧
      genericFitValidate [("x", [1, 2]), ("y", [2, 4])] "x" "y" =
        .ok ⟨[1, 2], [2, 4], [0, 0], [0, 0]⟩ := by
  constructor
  · exact (generic_fit_missing_columns_vs_missing_uncertainty
      [("x", [1, 2])] "x" "y").1 (by right; rfl)
  · have h := (generic_fit_missing_columns_vs_missing_uncertainty
      [("x", [1, 2]), ("y", [2, 4])] "x" "y").2 [1, 2] [2, 4]
      rfl rfl (by decide) rfl rfl rfl
    simpa using h

/-- C10: `validate_numeric_data` demands finiteness, not merely numeric
dtype — a series of numeric dtype containing a NaN or an infinite value
is rejected with `DataValidationError`, while a series of finite numbers
passes. -/
theorem validate_numeric_data_requires_finiteness
    (series : List PyVal) (column : String) :
    (series.all PyVal.isNumericType = true →
      (∃ v ∈ series, v.isNan = true ∨ v.isInfinite = true) →
      ∃ err, validate_numeric_data series column = .error err) ∧
    ((∀ v ∈ series, v.isFiniteNum = true) →
      validate_numeric_data series column = .ok ()) := by
  constructor
  · intro hnum hbad
    obtain ⟨v, hv, hcase⟩ := hbad
    by_cases hnan : series.any PyVal.isNan
    · exact ⟨.containsNaN column, by simp [validate_numeric_data, hnum, hnan]⟩
    · have hinf : series.any PyVal.isInfinite = true := by
        rcases hcase with h | h
        · exact absurd (List.any_eq_true.mpr ⟨v, hv, h⟩) hnan
        · exact List.any_eq_true.mpr ⟨v, hv, h⟩
      exact ⟨.containsInf column, by simp [validate_numeric_data, hnum, hnan, hinf]⟩
  · intro hfin
    have hnum : series.all PyVal.isNumericType = true := by
      rw [List.all_eq_true]
      intro v hv
      have := hfin v hv
      cases v <;> simp_all [PyVal.isFiniteNum, PyVal.isNumericType]
    have hnan : series.any PyVal.isNan = false := by
      rw [List.any_eq_false]
      intro v hv
      have := hfin v hv
      cases v <;> simp_all [PyVal.isFiniteNum, PyVal.isNan]
    have hinf : series.any PyVal.isInfinite = false := by
      rw [List.any_eq_false]
      intro v hv
      have := hfin v hv
      cases v <;> simp_all [PyVal.isFiniteNum, PyVal.isInfinite]
    simp [validate_numeric_data, hnum, hnan, hinf]

/-- Witness for C10: `[1.0, nan, 3.0]` and `[1.0, inf, 3.0]` are
rejected; `[1.0, 2.0, 3.0]` passes. -/
theorem validate_numeric_data_requires_finiteness_witness :
    (∃ err, validate_numeric_data [.num 1, .nan, .num 3] "test_col" = .error err) ∧
    (∃ err, validate_numeric_data [.num 1, .inf, .num 3] "test_col" = .error err) ∧
      validate_numeric_data [.num 1, .num 2, .num 3] "test_col" = .ok () :=
  ⟨(validate_numeric_data_requires_finiteness [.num 1, .nan, .num 3] "test_col").1
      (by decide) ⟨.nan, by decide, by decide⟩,
   (validate_numeric_data_requires_finiteness [.num 1, .inf, .num 3] "test_col").1
      (by decide) ⟨.inf, by decide, by decide⟩,
   (validate_numeric_data_requires_finiteness [.num 1, .num 2, .num 3] "test_col").2
      (by decide)⟩

/-- C8: `get_fitting_function` returns `None` for the exit sentinel
`'Salir'` and for every unregistered identifier, and returns a callable
model for each registered built-in. -/
theorem get_fitting_function_none_for_unknown_and_exit
    (identifier : String) (hunknown : ∀ p ∈ EQUATIONS, identifier ≠ p.1) :
    get_fitting_function EXIT_SIGNAL = none ∧
    get_fitting_function identifier = none ∧
    (get_fitting_function "linear_function").isSome = true ∧
    (get_fitting_function "quadratic_function").isSome = true ∧
    (get_fitting_function "sin_function").isSome = true := by
  refine ⟨rfl, ?_, rfl, rfl, rfl⟩
  have h1 := hunknown ("linear_function", linear_function) (by simp [EQUATIONS])
  have h2 := hunknown ("quadratic_function", quadratic_function) (by simp [EQUATIONS])
  have h3 := hunknown ("sin_function", sin_function) (by simp [EQUATIONS])
  by_cases hs : identifier = EXIT_SIGNAL
  · simp [get_fitting_function, hs]
  · simp [get_fitting_function, hs, EQUATIONS, lookupEquation, h1, h2, h3]

/-- Witness for C8 at the identifier the tests use:
`'unknown_equation'` resolves to no model, `'Salir'` resolves to no
model, and the three built-ins resolve to callables. -/
theorem get_fitting_function_none_for_unknown_and_exit_witness :
    get_fitting_function EXIT_SIGNAL = none ∧
    get_fitting_function "unknown_equation" = none ∧
    (get_fitting_function "linear_function").isSome = true ∧
    (get_fitting_function "quadratic_function").isSome = true ∧
    (get_fitting_function "sin_function").isSome = true :=
  get_fitting_function_none_for_unknown_and_exit "unknown_equation"
    (by intro p hp; fin_cases hp <;> decide)

/-- The loop invariant of `apply_all_equations` under the test harness:
starting from any state, the recorded calls extend by one record per
identifier, in list order. -/
theorem apply_all_equations_harness_trace (ids : List String)
    (data : DataFrame) (x_name y_name plot_name : String) (s : HarnessState) :
    (apply_all_equations mockEquationSetter mockGetFitter ids data x_name
        y_name plot_name s).fit_calls =
      s.fit_calls ++ ids.map (fun eq_type =>
        (some eq_type, ⟨data, x_name, y_name, plot_name ++ "_" ++ eq_type⟩)) := by
  induction ids generalizing s with
  | nil => simp [apply_all_equations]
  | cons eq_type rest ih =>
      rw [apply_all_equations, ih]
      simp [mockEquationSetter, mockGetFitter]

/-- C9: over `N` identifiers, `apply_all_equations` invokes the
caller-supplied fitter exactly `N` times, sequentially in list order,
with the current equation set by `equation_setter` before each fit and
with plot name `"<plot_name>_<identifier>"`; over the empty list it
performs zero fits. -/
theorem apply_all_equations_invokes_fitter_per_identifier
    (ids : List String) (data : DataFrame) (x_name y_name plot_name : String) :
    (apply_all_equations mockEquationSetter mockGetFitter ids data x_name
        y_name plot_name ⟨none, []⟩).fit_calls =
      ids.map (fun eq_type =>
        (some eq_type, ⟨data, x_name, y_name, plot_name ++ "_" ++ eq_type⟩)) ∧
    (apply_all_equations mockEquationSetter mockGetFitter [] data x_name
        y_name plot_name ⟨none, []⟩).fit_calls = [] := by
  constructor
  · simpa using apply_all_equations_harness_trace ids data x_name y_name
      plot_name ⟨none, []⟩
  · rfl


/-! ## Bounds for the estimator helpers -/

/-- The seed is below the running maximum of a fold. -/
theorem le_foldl_max (s : List ℚ) : ∀ c : ℚ, c ≤ s.foldl max c := by
  induction s with
  | nil => intro c; simp
  | cons a s ih =>
      intro c
      rw [List.foldl_cons]
      exact le_trans (le_max_left c a) (ih (max c a))

/-- The running minimum of a fold is below the seed. -/
theorem foldl_min_le (s : List ℚ) : ∀ c : ℚ, s.foldl min c ≤ c := by
  induction s with
  | nil => intro c; simp
  | cons a s ih =>
      intro c
      rw [List.foldl_cons]
      exact le_trans (ih (min c a)) (min_le_left c a)

/-- On a non-empty column the minimum is below the maximum. -/
theorem listMin_le_listMax (l : List ℚ) (h : l ≠ []) : listMin l ≤ listMax l := by
  cases l with
  | nil => exact absurd rfl h
  | cons c s =>
      exact le_trans (foldl_min_le s c) (le_foldl_max s c)

/-- The arctangent surrogate stays below one half turn. -/
theorem atanUnitPi_le_half (t : ℚ) : atanUnitPi t ≤ 1 / 2 := by
  have hd : (0 : ℚ) < 2 * (1 + |t|) := by positivity
  rw [atanUnitPi, div_le_iff₀ hd]
  nlinarith [le_abs_self t, abs_nonneg t]

/-- The arctangent surrogate stays above minus one half turn. -/
theorem neg_half_le_atanUnitPi (t : ℚ) : -(1 / 2) ≤ atanUnitPi t := by
  have hd : (0 : ℚ) < 2 * (1 + |t|) := by positivity
  rw [atanUnitPi, le_div_iff₀ hd]
  nlinarith [neg_abs_le t, abs_nonneg t]

/-- The arctangent surrogate of a non-positive argument is non-positive. -/
theorem atanUnitPi_nonpos {t : ℚ} (h : t ≤ 0) : atanUnitPi t ≤ 0 := by
  have hd : (0 : ℚ) ≤ 2 * (1 + |t|) := by positivity
  exact div_nonpos_iff.mpr (Or.inr ⟨h, hd⟩)

/-- The arctangent surrogate of a non-negative argument is non-negative. -/
theorem atanUnitPi_nonneg {t : ℚ} (h : 0 ≤ t) : 0 ≤ atanUnitPi t := by
  have hd : (0 : ℚ) ≤ 2 * (1 + |t|) := by positivity
  exact div_nonneg h hd

/-- The quadrant-corrected arctangent lands in `[-1, 1]` (units of π). -/
theorem atan2UnitPi_mem (b a : ℚ) :
    -1 ≤ atan2UnitPi b a ∧ atan2UnitPi b a ≤ 1 := by
  unfold atan2UnitPi
  split_ifs with h1 h2 h3 h4 h5
  · constructor
    · linarith [neg_half_le_atanUnitPi (b / a)]
    · linarith [atanUnitPi_le_half (b / a)]
  · have ht : b / a ≤ 0 := div_nonpos_iff.mpr (Or.inl ⟨h3, le_of_lt h2⟩)
    constructor
    · linarith [neg_half_le_atanUnitPi (b / a)]
    · linarith [atanUnitPi_nonpos ht]
  · have hb : b < 0 := lt_of_not_le h3
    have ht : 0 ≤ b / a := le_of_lt (div_pos_iff.mpr (Or.inr ⟨hb, h2⟩))
    constructor
    · linarith [atanUnitPi_nonneg ht]
    · linarith [atanUnitPi_le_half (b / a)]
  · constructor <;> norm_num
  · constructor <;> norm_num
  · constructor <;> norm_num

/-- C4: the parameter estimators are total with bounded outputs — the
estimated amplitude is non-negative; constant `y` and too-few-points
inputs return the fallback defaults `(1, 1)` instead of failing; and for
every input (including zero amplitude) the estimated phase is finite and
lies in `[-π, π]` (here `[-1, 1]` in units of π). -/
theorem estimators_total_and_bounded (x y : List ℚ) :
    0 ≤ (estimate_trigonometric_parameters x y).1 ∧
    (listMax y = listMin y → estimate_trigonometric_parameters x y = (1, 1)) ∧
    (y.length < 2 → estimate_trigonometric_parameters x y = (1, 1)) ∧
    (∀ amplitude frequency : ℚ,
      -1 ≤ estimate_phase_shift x y amplitude frequency ∧
        estimate_phase_shift x y amplitude frequency ≤ 1) := by
  refine ⟨?_, ?_, ?_, ?_⟩
  · simp only [estimate_trigonometric_parameters]
    split
    · norm_num
    · rename_i h
      simp only [Bool.or_eq_true, decide_eq_true_eq, beq_iff_eq, not_or] at h
      obtain ⟨hlen, hconst⟩ := h
      have hne : y ≠ [] := by
        intro he
        exact hlen (by simp [he])
      have hle : listMin y ≤ listMax y := listMin_le_listMax y hne
      have hamp : 0 ≤ (listMax y - listMin y) / 2 := by
        have : 0 ≤ listMax y - listMin y := by linarith
        positivity
      split
      · exact hamp
      · exact hamp
  · intro h
    simp [estimate_trigonometric_parameters, h]
  · intro h
    simp [estimate_trigonometric_parameters, h]
  · intro amplitude frequency
    exact atan2UnitPi_mem _ _

/-- Witness for C4: constant data `y = [5,5]` yields the fallback
defaults with non-negative amplitude; a single-point input yields the
fallback; the phase at zero amplitude is within `[-1, 1]` (units of π). -/
theorem estimators_total_and_bounded_witness :
    0 ≤ (estimate_trigonometric_parameters [0, 1] [5, 5]).1 ∧
    estimate_trigonometric_parameters [0, 1] [5, 5] = (1, 1) ∧
    estimate_trigonometric_parameters [0] [7] = (1, 1) ∧
    (-1 ≤ estimate_phase_shift [0, 1] [0, 0] 0 1 ∧
      estimate_phase_shift [0, 1] [0, 0] 0 1 ≤ 1) :=
  ⟨(estimators_total_and_bounded [0, 1] [5, 5]).1,
   (estimators_total_and_bounded [0, 1] [5, 5]).2.1 (by decide),
   (estimators_total_and_bounded [0] [7]).2.2.1 (by decide),
   (estimators_total_and_bounded [0, 1] [0, 0]).2.2.2 0 1⟩


/-! ## String-level lemmas for the report layout -/

/-- Splitting a newline-free line yields just that line. -/
theorem splitNl_no_newline (l : List Char) (h : Char.ofNat 10 ∉ l) :
    splitNl l = [l] := by
  induction l with
  | nil => rfl
  | cons c s ih =>
      have hc : ¬ c = Char.ofNat 10 := fun he => h (he ▸ List.mem_cons_self c s)
      have hs : Char.ofNat 10 ∉ s := fun hm => h (List.mem_cons_of_mem c hm)
      rw [splitNl, if_neg (by simpa using hc), ih hs]

/-- Splitting distributes over a newline separator after a newline-free
first line. -/
theorem splitNl_append_newline (l t : List Char) (h : Char.ofNat 10 ∉ l) :
    splitNl (l ++ Char.ofNat 10 :: t) = l :: splitNl t := by
  induction l with
  | nil => simp [splitNl]
  | cons c s ih =>
      have hc : ¬ c = Char.ofNat 10 := fun he => h (he ▸ List.mem_cons_self c s)
      have hs : Char.ofNat 10 ∉ s := fun hm => h (List.mem_cons_of_mem c hm)
      rw [List.cons_append, splitNl, if_neg (by simpa using hc), ih hs]

/-- Splitting inverts joining for newline-free lines. -/
theorem splitNl_joinNl (ls : List (List Char)) (hne : ls ≠ [])
    (h : ∀ l ∈ ls, Char.ofNat 10 ∉ l) : splitNl (joinNl ls) = ls := by
  induction ls with
  | nil => exact absurd rfl hne
  | cons l rest ih =>
      cases rest with
      | nil =>
          rw [joinNl]
          exact splitNl_no_newline l (h l (List.mem_cons_self l []))
      | cons l2 rest2 =>
          rw [show joinNl (l :: l2 :: rest2) =
              l ++ Char.ofNat 10 :: joinNl (l2 :: rest2) from rfl,
            splitNl_append_newline l _ (h l (List.mem_cons_self l _)),
            ih (fun hx => List.noConfusion hx)
              (fun m hm => h m (List.mem_cons_of_mem l hm))]

/-- Dropping leading whitespace does nothing when the head is not
whitespace. -/
theorem dropWhile_ws_eq_self {l : List Char}
    (h : ∀ c, l.head? = some c → c.isWhitespace = false) :
    l.dropWhile Char.isWhitespace = l := by
  cases l with
  | nil => rfl
  | cons c s => simp [List.dropWhile_cons, h c rfl]

/-- `str.strip()` does nothing when neither end is whitespace. -/
theorem pyStrip_eq_self {l : List Char}
    (hh : ∀ c, l.head? = some c → c.isWhitespace = false)
    (hl : ∀ c, l.getLast? = some c → c.isWhitespace = false) :
    pyStrip l = l := by
  unfold pyStrip
  rw [dropWhile_ws_eq_self hh,
    dropWhile_ws_eq_self (fun c hc => hl c (by rwa [List.head?_reverse] at hc)),
    List.reverse_reverse]

/-- Appending a non-empty list on the right decides the last element. -/
theorem getLast?_append_right (a b : List Char) (hb : b ≠ []) :
    (a ++ b).getLast? = b.getLast? := by
  rw [List.getLast?_append]
  cases hgb : b.getLast? with
  | some v => rfl
  | none => exact absurd (List.getLast?_eq_none_iff.mp hgb) hb

/-- A newline join of non-empty lines is non-empty. -/
theorem joinNl_ne_nil (ls : List (List Char)) (hne : ls ≠ [])
    (h : ∀ l ∈ ls, l ≠ []) : joinNl ls ≠ [] := by
  cases ls with
  | nil => exact absurd rfl hne
  | cons l rest =>
      cases rest with
      | nil => exact h l (List.mem_cons_self l [])
      | cons l2 rest2 =>
          rw [show joinNl (l :: l2 :: rest2) =
            l ++ Char.ofNat 10 :: joinNl (l2 :: rest2) from rfl]
          cases hl : l with
          | nil => simp
          | cons c s => simp

/-- The head of a newline join is the head of the first line. -/
theorem joinNl_head (l : List Char) (ls : List (List Char)) (hne : l ≠ []) :
    (joinNl (l :: ls)).head? = l.head? := by
  cases ls with
  | nil => rfl
  | cons l2 rest =>
      cases l with
      | nil => exact absurd rfl hne
      | cons c s => rfl

/-- The last character of a newline join is the last character of one of
the lines. -/
theorem joinNl_getLast (ls : List (List Char)) (hne : ls ≠ [])
    (h : ∀ l ∈ ls, l ≠ []) :
    ∃ l ∈ ls, (joinNl ls).getLast? = l.getLast? := by
  induction ls with
  | nil => exact absurd rfl hne
  | cons l rest ih =>
      cases rest with
      | nil => exact ⟨l, List.mem_cons_self l [], rfl⟩
      | cons l2 rest2 =>
          obtain ⟨m, hm, hlast⟩ := ih (fun hx => List.noConfusion hx)
            (fun a ha => h a (List.mem_cons_of_mem l ha))
          refine ⟨m, List.mem_cons_of_mem l hm, ?_⟩
          rw [show joinNl (l :: l2 :: rest2) =
            l ++ Char.ofNat 10 :: joinNl (l2 :: rest2) from rfl]
          have hjoin : joinNl (l2 :: rest2) ≠ [] :=
            joinNl_ne_nil _ (fun hx => List.noConfusion hx)
              (fun a ha => h a (List.mem_cons_of_mem l ha))
          rw [getLast?_append_right _ _ (List.cons_ne_nil _ _),
            show Char.ofNat 10 :: joinNl (l2 :: rest2) =
              [Char.ofNat 10] ++ joinNl (l2 :: rest2) from rfl,
            getLast?_append_right _ _ hjoin]
          exact hlast


/-! ## Character classes of the rendered report -/

/-- The ten decimal digit characters. -/
def digitChars : List Char := ['0', '1', '2', '3', '4', '5', '6', '7', '8', '9']

/-- The characters the number renderer can emit. -/
def safeChars : List Char := '-' :: '/' :: digitChars

theorem digitChar_mem_digitChars {m : Nat} (h : m < 10) :
    Nat.digitChar m ∈ digitChars := by
  interval_cases m <;> decide

theorem natCharsAux_subset (f : Nat) : ∀ (n : Nat), ∀ c ∈ natCharsAux f n, c ∈ digitChars := by
  induction f with
  | zero => intro n c hc; simp [natCharsAux] at hc
  | succ f ih =>
      intro n c hc
      rw [natCharsAux] at hc
      by_cases h : n < 10
      · rw [if_pos h] at hc
        rw [List.mem_singleton.mp hc]
        exact digitChar_mem_digitChars h
      · rw [if_neg h] at hc
        rcases List.mem_append.mp hc with h1 | h2
        · exact ih (n / 10) c h1
        · rw [List.mem_singleton.mp h2]
          exact digitChar_mem_digitChars (Nat.mod_lt _ (by norm_num))

theorem natChars_subset (n : Nat) : ∀ c ∈ natChars n, c ∈ digitChars :=
  natCharsAux_subset (n + 1) n

theorem natChars_ne_nil (n : Nat) : natChars n ≠ [] := by
  rw [natChars, natCharsAux]
  by_cases h : n < 10
  · rw [if_pos h]; exact fun hx => List.noConfusion hx
  · rw [if_neg h]
    intro hx
    exact absurd (List.append_eq_nil.mp hx).2 (fun hy => List.noConfusion hy)

theorem ratChars_subset (q : ℚ) : ∀ c ∈ ratChars q, c ∈ safeChars := by
  intro c hc
  rw [ratChars] at hc
  rcases List.mem_append.mp hc with h1 | h2
  · rcases List.mem_append.mp h1 with h3 | h4
    · split at h3
      · rw [List.mem_singleton.mp h3]; decide
      · simp at h3
    · exact List.mem_cons_of_mem _ (List.mem_cons_of_mem _ (natChars_subset _ c h4))
  · split at h2
    · simp at h2
    · rcases List.mem_cons.mp h2 with rfl | h5
      · decide
      · exact List.mem_cons_of_mem _ (List.mem_cons_of_mem _ (natChars_subset _ c h5))

theorem ratChars_ne_nil (q : ℚ) : ratChars q ≠ [] := by
  rw [ratChars]
  intro hx
  have h1 := (List.append_eq_nil.mp hx).1
  exact absurd (List.append_eq_nil.mp h1).2 (natChars_ne_nil _)

/-- The last character a number rendering can end with is never
whitespace and never `²`. -/
theorem safeChars_props : ∀ c ∈ safeChars, c.isWhitespace = false ∧
    c ≠ Char.ofNat 10 ∧ c ≠ '²' := by decide

/-- A word character is not whitespace. -/
theorem wordChar_not_ws {c : Char} (h : isWordChar c = true) :
    c.isWhitespace = false := by
  rcases Bool.eq_false_or_eq_true c.isWhitespace with hws | hws
  · exfalso
    have hd : c = ' ' ∨ c = '\t' ∨ c = '\r' ∨ c = Char.ofNat 10 := by
      simpa [Char.isWhitespace, or_assoc] using hws
    rcases hd with rfl | rfl | rfl | rfl <;> exact absurd h (by decide)
  · exact hws

/-- A word character is neither a newline nor `²`. -/
theorem wordChar_props {c : Char} (h : isWordChar c = true) :
    c ≠ Char.ofNat 10 ∧ c ≠ '²' := by
  constructor
  · intro he
    rw [he] at h
    exact absurd h (by decide)
  · intro he
    rw [he] at h
    exact absurd h (by decide)

/-- A valid identifier consists of word characters and is non-empty. -/
theorem isValidIdentifier_chars {s : String} (h : isValidIdentifier s = true) :
    s.toList ≠ [] ∧ (∀ c ∈ s.toList, isWordChar c = true) := by
  rw [isValidIdentifier] at h
  cases hs : s.toList with
  | nil => rw [hs] at h; exact absurd h (by decide)
  | cons c cs =>
      rw [hs] at h
      simp only [Bool.and_eq_true, List.all_eq_true] at h
      obtain ⟨h1, h2⟩ := h
      refine ⟨fun hx => List.noConfusion hx, ?_⟩
      intro d hd
      rcases List.mem_cons.mp hd with rfl | hd2
      · rcases (by simpa [isIdentStart] using h1 : d.isAlpha = true ∨ d = '_') with ha | rfl
        · simp [isWordChar, Char.isAlphanum, ha]
        · decide
      · exact h2 d hd2

/-- The last element of a list is a member. -/
theorem mem_of_getLast?_eq {l : List Char} {c : Char} (h : l.getLast? = some c) :
    c ∈ l := by
  induction l with
  | nil => simp [List.getLast?] at h
  | cons a t ih =>
      cases t with
      | nil =>
          simp [List.getLast?] at h
          simp [h]
      | cons b u =>
          rw [List.getLast?_cons_cons] at h
          exact List.mem_cons_of_mem a (ih h)


/-! ## Per-line facts of the rendered report -/

/-- What the splitter needs from each rendered line: non-empty, free of
newlines, and not whitespace at either end. -/
def GoodReportLine (l : List Char) : Prop :=
  l ≠ [] ∧ Char.ofNat 10 ∉ l ∧
    (∀ c, l.head? = some c → c.isWhitespace = false) ∧
    (∀ c, l.getLast? = some c → c.isWhitespace = false)

theorem head?_append_left {a b : List Char} {c : Char} (h : a.head? = some c) :
    (a ++ b).head? = some c := by
  cases a with
  | nil => exact absurd h (by simp)
  | cons x t =>
      rw [List.head?_cons] at h
      rw [List.cons_append, List.head?_cons, h]

theorem notmem_append {c : Char} {a b : List Char} (ha : c ∉ a) (hb : c ∉ b) :
    c ∉ a ++ b :=
  fun h => (List.mem_append.mp h).elim ha hb

theorem safe_not_nl {tail : List Char} (hs : ∀ c ∈ tail, c ∈ safeChars) :
    Char.ofNat 10 ∉ tail :=
  fun h => (safeChars_props _ (hs _ h)).2.1 rfl

theorem safe_no_sup {tail : List Char} (hs : ∀ c ∈ tail, c ∈ safeChars) :
    '²' ∉ tail :=
  fun h => (safeChars_props _ (hs _ h)).2.2 rfl

theorem word_not_nl {l : List Char} (hw : ∀ c ∈ l, isWordChar c = true) :
    Char.ofNat 10 ∉ l :=
  fun h => (wordChar_props (hw _ h)).1 rfl

theorem word_no_sup {l : List Char} (hw : ∀ c ∈ l, isWordChar c = true) :
    '²' ∉ l :=
  fun h => (wordChar_props (hw _ h)).2 rfl

theorem safe_last_ws {pre tail : List Char} (ht : tail ≠ [])
    (hs : ∀ c ∈ tail, c ∈ safeChars) :
    ∀ c, (pre ++ tail).getLast? = some c → c.isWhitespace = false := by
  intro c hc
  rw [getLast?_append_right _ _ ht] at hc
  exact (safeChars_props c (hs c (mem_of_getLast?_eq hc))).1

theorem name_head_ws {name : List Char} (hne : name ≠ [])
    (hw : ∀ c ∈ name, isWordChar c = true) (rest : List Char) :
    ∀ c, (name ++ rest).head? = some c → c.isWhitespace = false := by
  cases name with
  | nil => exact absurd rfl hne
  | cons a t =>
      intro c hc
      rw [List.cons_append, List.head?_cons] at hc
      injection hc with hac
      rw [← hac]
      exact wordChar_not_ws (hw a (List.mem_cons_self a t))

/-- The `name=value` and `σ(name)=sigma` lines are well-formed and free
of `²`. -/
theorem valueSigmaLines_props (ps : List FitParameter)
    (hnames : ∀ p ∈ ps, isValidIdentifier p.name = true) :
    ∀ l ∈ paramValueSigmaLines ps, GoodReportLine l ∧ '²' ∉ l := by
  intro l hl
  rw [paramValueSigmaLines, List.mem_flatMap] at hl
  obtain ⟨p, hp, hlp⟩ := hl
  obtain ⟨hne, hw⟩ := isValidIdentifier_chars (hnames p hp)
  rcases List.mem_cons.mp hlp with rfl | hlp2
  · -- the value line  name=value
    have hform : p.name.toList ++ '=' :: ratChars p.value =
        (p.name.toList ++ ['=']) ++ ratChars p.value := by
      rw [List.append_assoc]
      rfl
    constructor
    · refine ⟨?_, ?_, ?_, ?_⟩
      · intro hx
        exact hne (List.append_eq_nil.mp hx).1
      · refine notmem_append (word_not_nl hw) ?_
        intro hmem
        rcases List.mem_cons.mp hmem with he | hm
        · exact absurd he (by decide)
        · exact safe_not_nl (ratChars_subset _) hm
      · exact name_head_ws hne hw _
      · rw [hform]
        exact safe_last_ws (ratChars_ne_nil _) (ratChars_subset _)
    · refine notmem_append (word_no_sup hw) ?_
      intro hmem
      rcases List.mem_cons.mp hmem with he | hm
      · exact absurd he (by decide)
      · exact safe_no_sup (ratChars_subset _) hm
  · -- the sigma line  σ(name)=sigma
    rcases List.mem_cons.mp hlp2 with rfl | hlp3
    · have hform : ('σ' :: '(' :: p.name.toList) ++ ')' :: '=' :: ratChars p.sigma =
          (('σ' :: '(' :: p.name.toList) ++ [')', '=']) ++ ratChars p.sigma := by
        rw [List.append_assoc]
        rfl
      have hmem_split : ∀ c : Char, c ∈ ('σ' :: '(' :: p.name.toList) ++
          ')' :: '=' :: ratChars p.sigma →
          c = 'σ' ∨ c = '(' ∨ c ∈ p.name.toList ∨ c = ')' ∨ c = '=' ∨
            c ∈ ratChars p.sigma := by
        intro c hc
        rcases List.mem_append.mp hc with h1 | h2
        · rcases List.mem_cons.mp h1 with rfl | h3
          · exact Or.inl rfl
          · rcases List.mem_cons.mp h3 with rfl | h4
            · exact Or.inr (Or.inl rfl)
            · exact Or.inr (Or.inr (Or.inl h4))
        · rcases List.mem_cons.mp h2 with rfl | h3
          · exact Or.inr (Or.inr (Or.inr (Or.inl rfl)))
          · rcases List.mem_cons.mp h3 with rfl | h4
            · exact Or.inr (Or.inr (Or.inr (Or.inr (Or.inl rfl))))
            · exact Or.inr (Or.inr (Or.inr (Or.inr (Or.inr h4))))
      constructor
      · refine ⟨?_, ?_, ?_, ?_⟩
        · intro hx
          exact List.noConfusion ((List.append_eq_nil.mp hx).1)
        · intro hmem
          rcases hmem_split _ hmem with h | h | h | h | h | h
          · exact absurd h (by decide)
          · exact absurd h (by decide)
          · exact (wordChar_props (hw _ h)).1 rfl
          · exact absurd h (by decide)
          · exact absurd h (by decide)
          · exact safe_not_nl (ratChars_subset _) h
        · intro c hc
          rw [List.cons_append, List.head?_cons] at hc
          injection hc with hac
          rw [← hac]
          decide
        · rw [hform]
          exact safe_last_ws (ratChars_ne_nil _) (ratChars_subset _)
      · intro hmem
        rcases hmem_split _ hmem with h | h | h | h | h | h
        · exact absurd h (by decide)
        · exact absurd h (by decide)
        · exact (wordChar_props (hw _ h)).2 rfl
        · exact absurd h (by decide)
        · exact absurd h (by decide)
        · exact safe_no_sup (ratChars_subset _) h
    · simp at hlp3


/-- The confidence-interval lines are well-formed and free of `²`. -/
theorem ciLines_props (ps : List FitParameter)
    (hnames : ∀ p ∈ ps, isValidIdentifier p.name = true) :
    ∀ l ∈ ciLines ps, GoodReportLine l ∧ '²' ∉ l := by
  intro l hl
  rw [ciLines, List.mem_map] at hl
  obtain ⟨p, hp, rfl⟩ := hl
  obtain ⟨hne, hw⟩ := isValidIdentifier_chars (hnames p hp)
  have hic : ∀ c ∈ " IC 95%: [".toList, c ≠ Char.ofNat 10 ∧ c ≠ '²' := by decide
  have hcomma : ∀ c ∈ ", ".toList, c ≠ Char.ofNat 10 ∧ c ≠ '²' := by decide
  have hbr : ∀ c ∈ "]".toList, c ≠ Char.ofNat 10 ∧ c ≠ '²' := by decide
  have hmem_split : ∀ c : Char,
      c ∈ p.name.toList ++ " IC 95%: [".toList ++ ratChars p.ci_low ++
        ", ".toList ++ ratChars p.ci_high ++ "]".toList →
      c ∈ p.name.toList ∨ c ∈ " IC 95%: [".toList ∨ c ∈ ratChars p.ci_low ∨
        c ∈ ", ".toList ∨ c ∈ ratChars p.ci_high ∨ c ∈ "]".toList := by
    intro c hc
    rcases List.mem_append.mp hc with h1 | h2
    · rcases List.mem_append.mp h1 with h3 | h4
      · rcases List.mem_append.mp h3 with h5 | h6
        · rcases List.mem_append.mp h5 with h7 | h8
          · rcases List.mem_append.mp h7 with h9 | h10
            · exact Or.inl h9
            · exact Or.inr (Or.inl h10)
          · exact Or.inr (Or.inr (Or.inl h8))
        · exact Or.inr (Or.inr (Or.inr (Or.inl h6)))
      · exact Or.inr (Or.inr (Or.inr (Or.inr (Or.inl h4))))
    · exact Or.inr (Or.inr (Or.inr (Or.inr (Or.inr h2))))
  constructor
  · refine ⟨?_, ?_, ?_, ?_⟩
    · intro hx
      exact hne (List.append_eq_nil.mp
        (List.append_eq_nil.mp (List.append_eq_nil.mp
          (List.append_eq_nil.mp (List.append_eq_nil.mp hx).1).1).1).1).1
    · intro hmem
      rcases hmem_split _ hmem with h | h | h | h | h | h
      · exact (wordChar_props (hw _ h)).1 rfl
      · exact (hic _ h).1 rfl
      · exact safe_not_nl (ratChars_subset _) h
      · exact (hcomma _ h).1 rfl
      · exact safe_not_nl (ratChars_subset _) h
      · exact (hbr _ h).1 rfl
    · intro c hc
      cases hn : p.name.toList with
      | nil => exact absurd hn hne
      | cons a t =>
          have hha : p.name.toList.head? = some a := by rw [hn, List.head?_cons]
          rw [head?_append_left (head?_append_left (head?_append_left
            (head?_append_left (head?_append_left hha))))] at hc
          injection hc with hac
          rw [← hac]
          exact wordChar_not_ws (hw a (by rw [hn]; exact List.mem_cons_self a t))
    · intro c hc
      rw [getLast?_append_right _ _ (by decide)] at hc
      have : c ∈ "]".toList := mem_of_getLast?_eq hc
      have hcbr : c = ']' := by
        rcases List.mem_cons.mp this with rfl | habs
        · rfl
        · simp at habs
      rw [hcbr]
      decide
  · intro hmem
    rcases hmem_split _ hmem with h | h | h | h | h | h
    · exact (wordChar_props (hw _ h)).2 rfl
    · exact (hic _ h).2 rfl
    · exact safe_no_sup (ratChars_subset _) h
    · exact (hcomma _ h).2 rfl
    · exact safe_no_sup (ratChars_subset _) h
    · exact (hbr _ h).2 rfl

/-- Each statistics line is well-formed; the first one contains `R²`. -/
theorem statisticsLines_props (st : FitStatistics) :
    (∀ l ∈ statisticsLines st, GoodReportLine l) ∧
      containsSub "R²".toList ("R²=".toList ++ ratChars st.r_squared) = true := by
  have hdigit_safe : ∀ n : Nat, ∀ c ∈ natChars n, c ∈ safeChars := by
    intro n c hc
    exact List.mem_cons_of_mem _ (List.mem_cons_of_mem _ (natChars_subset n c hc))
  have hgen : ∀ (lit : String) (tail : List Char), lit.toList ≠ [] →
      (∀ c ∈ lit.toList, c.isWhitespace = false ∧ c ≠ Char.ofNat 10) →
      tail ≠ [] → (∀ c ∈ tail, c ∈ safeChars) →
      GoodReportLine (lit.toList ++ tail) := by
    intro lit tail hlit hlitc htail hsafe
    refine ⟨?_, ?_, ?_, ?_⟩
    · intro hx
      exact hlit (List.append_eq_nil.mp hx).1
    · refine notmem_append ?_ (safe_not_nl hsafe)
      intro hmem
      exact (hlitc _ hmem).2 rfl
    · intro c hc
      cases hn : lit.toList with
      | nil => exact absurd hn hlit
      | cons a t =>
          rw [hn, List.cons_append, List.head?_cons] at hc
          injection hc with hac
          rw [← hac]
          exact (hlitc a (by rw [hn]; exact List.mem_cons_self a t)).1
    · exact safe_last_ws htail hsafe
  constructor
  · intro l hl
    rw [statisticsLines] at hl
    rcases List.mem_cons.mp hl with rfl | hl
    · exact hgen "R²=" _ (by decide) (by decide) (ratChars_ne_nil _) (ratChars_subset _)
    · rcases List.mem_cons.mp hl with rfl | hl
      · exact hgen "RMSE=" _ (by decide) (by decide) (ratChars_ne_nil _) (ratChars_subset _)
      · rcases List.mem_cons.mp hl with rfl | hl
        · exact hgen "χ²=" _ (by decide) (by decide) (ratChars_ne_nil _) (ratChars_subset _)
        · rcases List.mem_cons.mp hl with rfl | hl
          · exact hgen "χ²_red=" _ (by decide) (by decide) (ratChars_ne_nil _)
              (ratChars_subset _)
          · rcases List.mem_cons.mp hl with rfl | hl
            · exact hgen "dof=" _ (by decide) (by decide) (natChars_ne_nil _)
                (hdigit_safe _)
            · simp at hl
  · rw [show ("R²=".toList : List Char) = 'R' :: '²' :: '=' :: [] from rfl]
    rw [show ('R' :: '²' :: '=' :: [] : List Char) ++ ratChars st.r_squared =
      'R' :: '²' :: '=' :: ratChars st.r_squared from rfl]
    rw [containsSub]
    simp [List.isPrefixOf]

/-- A substring hit forces every pattern character into the line. -/
theorem containsSub_subset {pat l : List Char} (h : containsSub pat l = true) :
    ∀ c ∈ pat, c ∈ l := by
  induction l with
  | nil =>
      intro c hc
      rw [containsSub] at h
      rw [List.isEmpty_iff.mp h] at hc
      simp at hc
  | cons a t ih =>
      rw [containsSub, Bool.or_eq_true] at h
      rcases h with h | h
      · intro c hc
        obtain ⟨u, hu⟩ := List.isPrefixOf_iff_prefix.mp h
        rw [← hu]
        exact List.mem_append_left u hc
      · exact fun c hc => List.mem_cons_of_mem a (ih h c hc)

/-- A line without `²` cannot contain the pattern `R²`. -/
theorem no_sup_no_R2 {l : List Char} (h : '²' ∉ l) :
    containsSub "R²".toList l = false := by
  rcases Bool.eq_false_or_eq_true (containsSub "R²".toList l) with ht | hf
  · exact absurd (containsSub_subset ht '²' (by decide)) h
  · exact hf


/-- On well-formed lines the splitter's strip/split/strip/filter
pipeline recovers exactly the original lines. -/
theorem cleanedLines_of_good (lines : List (List Char)) (hne : lines ≠ [])
    (hg : ∀ l ∈ lines, GoodReportLine l) :
    ((splitNl (pyStrip (joinNl lines))).map pyStrip).filter
      (fun l => !l.isEmpty) = lines := by
  have hnl : ∀ l ∈ lines, Char.ofNat 10 ∉ l := fun l hl => (hg l hl).2.1
  have hlnn : ∀ l ∈ lines, l ≠ [] := fun l hl => (hg l hl).1
  have hstrip : pyStrip (joinNl lines) = joinNl lines := by
    apply pyStrip_eq_self
    · cases lines with
      | nil => exact absurd rfl hne
      | cons l rest =>
          intro c hc
          rw [joinNl_head l rest (hlnn l (List.mem_cons_self l rest))] at hc
          exact (hg l (List.mem_cons_self l rest)).2.2.1 c hc
    · intro c hc
      obtain ⟨m, hm, hlast⟩ := joinNl_getLast lines hne hlnn
      rw [hlast] at hc
      exact (hg m hm).2.2.2 c hc
  rw [hstrip, splitNl_joinNl lines hne hnl]
  have hmap : lines.map pyStrip = lines := by
    have := List.map_congr_left
      (fun l hl => pyStrip_eq_self ((hg l hl).2.2.1) ((hg l hl).2.2.2)
        : ∀ l ∈ lines, pyStrip l = id l)
    rw [this]
    simp
  rw [hmap, List.filter_eq_self.mpr]
  intro l hl
  cases hl2 : l with
  | nil => exact absurd hl2 (hlnn l hl)
  | cons a t => rfl

/-- The first index whose line satisfies the predicate, when a block of
misses precedes the first hit. -/
theorem findIdx?_first_hit (p : List Char → Bool) (vs : List (List Char))
    (st1 : List Char) (rest : List (List Char))
    (hvs : ∀ l ∈ vs, p l = false) (h1 : p st1 = true) :
    List.findIdx? p (vs ++ st1 :: rest) = some vs.length := by
  induction vs with
  | nil => simp [List.findIdx?_cons, h1]
  | cons v vs ih =>
      rw [List.cons_append, List.findIdx?_cons, hvs v (List.mem_cons_self v vs)]
      simp [ih (fun l hl => hvs l (List.mem_cons_of_mem v hl))]

/-- C3: the report text of a successful fit consists of interleaved
`name=value` / `σ(name)=sigma` lines in parameter order, then exactly
five statistics lines in fixed order with the `R²` line first, then one
95 % confidence-interval line per parameter — so the splitter that
anchors on the first `R²` line and takes five lines recovers exactly the
statistics block, and every remaining line is a parameter line. -/
theorem report_text_layout (ps : List FitParameter) (st : FitStatistics)
    (hnames : ∀ p ∈ ps, isValidIdentifier p.name = true) :
    split_parameters_text (report_text ps st) =
      (statisticsLines st, paramValueSigmaLines ps ++ ciLines ps) := by
  have hvsp := valueSigmaLines_props ps hnames
  have hcip := ciLines_props ps hnames
  obtain ⟨hstp, hR2⟩ := statisticsLines_props st
  have hlen5 : (statisticsLines st).length = 5 := rfl
  have hlines_good : ∀ l ∈ paramValueSigmaLines ps ++ statisticsLines st ++
      ciLines ps, GoodReportLine l := by
    intro l hl
    rcases List.mem_append.mp hl with h1 | h2
    · rcases List.mem_append.mp h1 with h3 | h4
      · exact (hvsp l h3).1
      · exact hstp l h4
    · exact (hcip l h2).1
  have hne : paramValueSigmaLines ps ++ statisticsLines st ++ ciLines ps ≠ [] := by
    intro hx
    have h1 := (List.append_eq_nil.mp (List.append_eq_nil.mp hx).1).2
    rw [statisticsLines] at h1
    exact List.noConfusion h1
  have hclean := cleanedLines_of_good _ hne hlines_good
  have hstscis : statisticsLines st ++ ciLines ps =
      ("R²=".toList ++ ratChars st.r_squared) ::
        (("RMSE=".toList ++ ratChars st.rmse) ::
          ("χ²=".toList ++ ratChars st.chi_square) ::
            ("χ²_red=".toList ++ ratChars st.reduced_chi_square) ::
              ("dof=".toList ++ natChars st.dof) :: ciLines ps) := rfl
  have hfind : (paramValueSigmaLines ps ++ statisticsLines st ++
      ciLines ps).findIdx? (fun l => containsSub "R²".toList l) =
        some (paramValueSigmaLines ps).length := by
    rw [List.append_assoc, hstscis]
    exact findIdx?_first_hit _ (paramValueSigmaLines ps) _ _
      (fun l hl => no_sup_no_R2 (hvsp l hl).2) hR2
  have h1 : ((paramValueSigmaLines ps ++ statisticsLines st ++
      ciLines ps).drop (paramValueSigmaLines ps).length).take 5 =
        statisticsLines st := by
    rw [List.append_assoc, List.drop_left]
    exact List.take_left' hlen5
  have h2 : (paramValueSigmaLines ps ++ statisticsLines st ++
      ciLines ps).take (paramValueSigmaLines ps).length =
        paramValueSigmaLines ps := by
    rw [List.append_assoc]
    exact List.take_left _ _
  have h3 : (paramValueSigmaLines ps ++ statisticsLines st ++
      ciLines ps).drop ((paramValueSigmaLines ps).length + 5) = ciLines ps := by
    have hl : (paramValueSigmaLines ps ++ statisticsLines st).length =
        (paramValueSigmaLines ps).length + 5 := by
      rw [List.length_append, hlen5]
    rw [← hl]
    exact List.drop_left _ _
  simp only [split_parameters_text, report_text]
  rw [hclean, hfind]
  simp only []
  rw [h1, h2, h3]

/-- Witness for C3: a one-parameter report (`m`) splits into exactly the
five statistics lines and the three parameter lines. -/
theorem report_text_layout_witness :
    (∀ p ∈ [(⟨"m", 2, 1/2, 1, 3⟩ : FitParameter)],
      isValidIdentifier p.name = true) ∧
    split_parameters_text
        (report_text [(⟨"m", 2, 1/2, 1, 3⟩ : FitParameter)] ⟨1, 0, 2, 1, 4⟩) =
      (statisticsLines ⟨1, 0, 2, 1, 4⟩,
        paramValueSigmaLines [(⟨"m", 2, 1/2, 1, 3⟩ : FitParameter)] ++
          ciLines [(⟨"m", 2, 1/2, 1, 3⟩ : FitParameter)]) :=
  ⟨by decide, report_text_layout _ _ (by decide)⟩


/-! ## Word runs: takeWhile/dropWhile facts -/

theorem takeWhile_append_of_all {p : Char → Bool} {w : List Char}
    (hw : ∀ c ∈ w, p c = true) (t : List Char) :
    List.takeWhile p (w ++ t) = w ++ List.takeWhile p t := by
  induction w with
  | nil => rfl
  | cons a w ih =>
      rw [List.cons_append, List.takeWhile_cons,
        hw a (List.mem_cons_self a w), if_pos rfl,
        ih (fun c hc => hw c (List.mem_cons_of_mem a hc)), List.cons_append]

theorem dropWhile_append_of_all {p : Char → Bool} {w : List Char}
    (hw : ∀ c ∈ w, p c = true) (t : List Char) :
    List.dropWhile p (w ++ t) = List.dropWhile p t := by
  induction w with
  | nil => rfl
  | cons a w ih =>
      rw [List.cons_append, List.dropWhile_cons,
        hw a (List.mem_cons_self a w), if_pos rfl,
        ih (fun c hc => hw c (List.mem_cons_of_mem a hc))]

theorem takeWhile_eq_nil_of_boundary {s : List Char}
    (h : boundary s = true) : List.takeWhile isWordChar s = [] := by
  cases s with
  | nil => rfl
  | cons c t =>
      rw [boundary] at h
      have hf : isWordChar c = false := by simpa using h
      simp [List.takeWhile_cons, hf]

theorem dropWhile_eq_self_of_boundary {s : List Char}
    (h : boundary s = true) : List.dropWhile isWordChar s = s := by
  cases s with
  | nil => rfl
  | cons c t =>
      rw [boundary] at h
      have hf : isWordChar c = false := by simpa using h
      simp [List.dropWhile_cons, hf]

theorem boundary_dropWhile (s : List Char) :
    boundary (List.dropWhile isWordChar s) = true := by
  induction s with
  | nil => rfl
  | cons c t ih =>
      rw [List.dropWhile_cons]
      by_cases h : isWordChar c = true
      · rw [if_pos h]
        exact ih
      · rw [if_neg h, boundary, Bool.eq_false_iff.mpr h]
        rfl

theorem mem_takeWhile_word {s : List Char} :
    ∀ c ∈ List.takeWhile isWordChar s, isWordChar c = true := by
  induction s with
  | nil => intro c hc; simp at hc
  | cons a t ih =>
      intro c hc
      rw [List.takeWhile_cons] at hc
      by_cases h : isWordChar a = true
      · rw [if_pos h] at hc
        rcases List.mem_cons.mp hc with rfl | hc2
        · exact h
        · exact ih c hc2
      · rw [if_neg h] at hc
        simp at hc

theorem length_dropWhile_word_le (s : List Char) :
    (List.dropWhile isWordChar s).length ≤ s.length := by
  induction s with
  | nil => exact Nat.le_refl 0
  | cons c t ih =>
      rw [List.dropWhile_cons]
      by_cases h : isWordChar c = true
      · rw [if_pos h]
        exact Nat.le_trans ih (Nat.le_succ _)
      · rw [if_neg h]


/-! ## The token-wise pass: derived equations -/

theorem mapTokensGo_run (tb : List (List Char × List Char)) :
    ∀ (w : List Char), (∀ c ∈ w, isWordChar c = true) → ∀ (acc s : List Char),
      mapTokensGo tb acc (w ++ s) = mapTokensGo tb (w.reverse ++ acc) s := by
  intro w
  induction w with
  | nil =>
      intro _ acc s
      rw [List.nil_append, List.reverse_nil, List.nil_append]
  | cons a w ih =>
      intro hw acc s
      rw [List.cons_append, mapTokensGo, if_pos (hw a (List.mem_cons_self a w)),
        ih (fun c hc => hw c (List.mem_cons_of_mem a hc)), List.reverse_cons,
        List.append_assoc, List.singleton_append]

theorem mapTokens_sep (tb : List (List Char × List Char)) {c : Char}
    (h : isWordChar c = false) (s : List Char) :
    mapTokens tb (c :: s) = c :: mapTokens tb s := by
  rw [mapTokens, mapTokensGo, if_neg (by rw [h]; exact fun hx => Bool.noConfusion hx)]
  rfl

theorem flushToken_reverse (tb : List (List Char × List Char)) {w : List Char}
    (hne : w ≠ []) : flushToken tb w.reverse = lookupRepl tb w := by
  cases hwr : w.reverse with
  | nil => exact absurd (List.reverse_eq_nil_iff.mp hwr) hne
  | cons a t =>
      rw [show flushToken tb (a :: t) = lookupRepl tb (a :: t).reverse from rfl,
        ← hwr, List.reverse_reverse]

theorem mapTokens_run (tb : List (List Char × List Char)) {w rest : List Char}
    (hne : w ≠ []) (hw : ∀ c ∈ w, isWordChar c = true)
    (hb : boundary rest = true) :
    mapTokens tb (w ++ rest) = lookupRepl tb w ++ mapTokens tb rest := by
  rw [mapTokens, mapTokensGo_run tb w hw [] rest, List.append_nil]
  cases rest with
  | nil =>
      rw [mapTokensGo, flushToken_reverse tb hne, mapTokens, mapTokensGo,
        flushToken, List.append_nil]
  | cons d t =>
      rw [boundary] at hb
      have hd : isWordChar d = false := by simpa using hb
      rw [mapTokensGo, if_neg (by rw [hd]; exact fun hx => Bool.noConfusion hx),
        flushToken_reverse tb hne, mapTokens_sep tb hd, mapTokens]

theorem mapTokens_nil_table : ∀ (n : Nat) (s : List Char), s.length ≤ n →
    mapTokens [] s = s := by
  intro n
  induction n with
  | zero =>
      intro s hs
      rw [List.length_eq_zero.mp (Nat.le_zero.mp hs)]
      rfl
  | succ n ih =>
      intro s hs
      cases s with
      | nil => rfl
      | cons c t =>
          by_cases hword : isWordChar c = true
          · have hdecomp : c :: t =
                (c :: List.takeWhile isWordChar t) ++ List.dropWhile isWordChar t := by
              rw [List.cons_append, List.takeWhile_append_dropWhile]
            rw [hdecomp, mapTokens_run [] (fun hx => List.noConfusion hx)
              (by
                intro d hd
                rcases List.mem_cons.mp hd with rfl | hd2
                · exact hword
                · exact mem_takeWhile_word d hd2)
              (boundary_dropWhile t)]
            rw [lookupRepl, ih (List.dropWhile isWordChar t)
              (Nat.le_trans (length_dropWhile_word_le t)
                (Nat.le_of_succ_le_succ hs))]
          · have hf : isWordChar c = false := Bool.eq_false_iff.mpr hword
            rw [mapTokens_sep [] hf, ih t (Nat.le_of_succ_le_succ hs)]

theorem mapTokens_append (tb : List (List Char × List Char)) :
    ∀ (n : Nat) (a rest : List Char), a.length ≤ n → boundary rest = true →
      mapTokens tb (a ++ rest) = mapTokens tb a ++ mapTokens tb rest := by
  intro n
  induction n with
  | zero =>
      intro a rest ha _
      rw [List.length_eq_zero.mp (Nat.le_zero.mp ha)]
      rfl
  | succ n ih =>
      intro a rest ha hb
      cases a with
      | nil => rfl
      | cons c t =>
          by_cases hword : isWordChar c = true
          · have hdecomp : c :: t =
                (c :: List.takeWhile isWordChar t) ++ List.dropWhile isWordChar t := by
              rw [List.cons_append, List.takeWhile_append_dropWhile]
            have hwall : ∀ d ∈ c :: List.takeWhile isWordChar t,
                isWordChar d = true := by
              intro d hd
              rcases List.mem_cons.mp hd with rfl | hd2
              · exact hword
              · exact mem_takeWhile_word d hd2
            have hbdrop : boundary (List.dropWhile isWordChar t ++ rest) = true := by
              cases hdw : List.dropWhile isWordChar t with
              | nil => exact hb
              | cons d u =>
                  have := boundary_dropWhile t
                  rw [hdw] at this
                  exact this
            have hlen : (List.dropWhile isWordChar t).length ≤ n :=
              Nat.le_trans (length_dropWhile_word_le t) (Nat.le_of_succ_le_succ ha)
            calc mapTokens tb ((c :: t) ++ rest)
                = mapTokens tb ((c :: List.takeWhile isWordChar t) ++
                    (List.dropWhile isWordChar t ++ rest)) := by
                  rw [← List.append_assoc, ← hdecomp]
              _ = lookupRepl tb (c :: List.takeWhile isWordChar t) ++
                    mapTokens tb (List.dropWhile isWordChar t ++ rest) :=
                  mapTokens_run tb (fun hx => List.noConfusion hx) hwall hbdrop
              _ = lookupRepl tb (c :: List.takeWhile isWordChar t) ++
                    (mapTokens tb (List.dropWhile isWordChar t) ++
                      mapTokens tb rest) := by
                  rw [ih _ rest hlen hb]
              _ = (lookupRepl tb (c :: List.takeWhile isWordChar t) ++
                    mapTokens tb (List.dropWhile isWordChar t)) ++
                      mapTokens tb rest := by
                  rw [List.append_assoc]
              _ = mapTokens tb (c :: t) ++ mapTokens tb rest := by
                  rw [← mapTokens_run tb (fun hx => List.noConfusion hx) hwall
                    (boundary_dropWhile t), ← hdecomp]
          · have hf : isWordChar c = false := Bool.eq_false_iff.mpr hword
            rw [List.cons_append, mapTokens_sep tb hf, mapTokens_sep tb hf,
              ih t rest (Nat.le_of_succ_le_succ ha) hb, List.cons_append]


/-! ## The scanner: basic equations -/

theorem subWordAux_nil (k0 : Char) (ks r : List Char) (n : Nat) (b : Bool) :
    subWordAux k0 ks r n b [] = [] := by
  cases n <;> cases b <;> rfl

theorem subWordAux_succ (k0 : Char) (ks r : List Char) (n : Nat) (b : Bool)
    (c : Char) (s : List Char) :
    subWordAux k0 ks r (n + 1) b (c :: s) = subWordAux k0 ks r n true s := by
  cases b <;> rfl

theorem subWordAux_true_cons (k0 : Char) (ks r : List Char) (c : Char)
    (s : List Char) :
    subWordAux k0 ks r 0 true (c :: s) =
      c :: subWordAux k0 ks r 0 (isWordChar c) s := rfl

theorem subWordAux_false_cons (k0 : Char) (ks r : List Char) (c : Char)
    (s : List Char) :
    subWordAux k0 ks r 0 false (c :: s) =
      if (decide (c = k0) && canMatch ks s) = true then
        r ++ subWordAux k0 ks r ks.length true s
      else c :: subWordAux k0 ks r 0 (isWordChar c) s := rfl

/-- `canMatch` succeeds exactly on a key prefix followed by a `\b`
boundary. -/
theorem canMatch_iff {ks : List Char} (hks : ∀ c ∈ ks, isWordChar c = true) :
    ∀ s, canMatch ks s = true ↔ ∃ rest, s = ks ++ rest ∧ boundary rest = true := by
  induction ks with
  | nil =>
      intro s
      cases s with
      | nil => exact ⟨fun _ => ⟨[], rfl, rfl⟩, fun _ => rfl⟩
      | cons c t =>
          constructor
          · intro h
            exact ⟨c :: t, rfl, h⟩
          · intro ⟨rest, hr, hb⟩
            rw [List.nil_append] at hr
            rw [← hr] at hb
            exact hb
  | cons a k ih =>
      intro s
      cases s with
      | nil =>
          constructor
          · intro h
            exact absurd h (by rw [canMatch]; exact fun hx => Bool.noConfusion hx)
          · intro ⟨rest, hr, _⟩
            exact absurd hr (fun hx => List.noConfusion hx)
      | cons b t =>
          rw [canMatch, Bool.and_eq_true, decide_eq_true_eq]
          constructor
          · intro ⟨hab, hm⟩
            obtain ⟨rest, hr, hb⟩ :=
              (ih (fun c hc => hks c (List.mem_cons_of_mem a hc)) t).mp hm
            exact ⟨rest, by rw [List.cons_append, ← hab, ← hr], hb⟩
          · intro ⟨rest, hr, hb⟩
            rw [List.cons_append] at hr
            injection hr with hba htr
            exact ⟨hba.symm, (ih (fun c hc => hks c (List.mem_cons_of_mem a hc)) t).mpr
              ⟨rest, htr, hb⟩⟩


/-- After a match the scanner discards the matched key characters and
resumes in the no-boundary state. -/
theorem subWordAux_discard (k0 : Char) (ks r : List Char) :
    ∀ (t : List Char) (b : Bool) (rest : List Char), t ≠ [] →
      subWordAux k0 ks r t.length b (t ++ rest) =
        subWordAux k0 ks r 0 true rest := by
  intro t
  induction t with
  | nil =>
      intro b rest h
      exact absurd rfl h
  | cons x t ih =>
      intro b rest _
      cases t with
      | nil => exact subWordAux_succ k0 ks r 0 b x rest
      | cons y u =>
          rw [show ((x :: y :: u : List Char)).length = (y :: u).length + 1 from rfl,
            List.cons_append,
            subWordAux_succ k0 ks r (y :: u).length b x ((y :: u) ++ rest)]
          exact ih true rest (fun hx => List.noConfusion hx)

/-- In the no-boundary state the scanner copies the rest of the current
word run unchanged. -/
theorem subWordAux_state_true (k0 : Char) (ks r : List Char)
    (hk0 : isWordChar k0 = true) :
    ∀ s, subWordAux k0 ks r 0 true s =
      List.takeWhile isWordChar s ++
        subWordAux k0 ks r 0 false (List.dropWhile isWordChar s) := by
  intro s
  induction s with
  | nil => rfl
  | cons c t ih =>
      by_cases hc : isWordChar c = true
      · rw [subWordAux_true_cons, hc, ih, List.takeWhile_cons, if_pos hc,
          List.dropWhile_cons, if_pos hc, List.cons_append]
      · have hf : isWordChar c = false := Bool.eq_false_iff.mpr hc
        have hck : (decide (c = k0) && canMatch ks t) = false := by
          have : decide (c = k0) = false := by
            rw [decide_eq_false_iff_not]
            intro he
            rw [he, hk0] at hf
            exact Bool.noConfusion hf
          rw [this, Bool.false_and]
        rw [subWordAux_true_cons, hf, List.takeWhile_cons, if_neg hc,
          List.dropWhile_cons, if_neg hc, List.nil_append,
          subWordAux_false_cons, if_neg (by rw [hck]; exact fun hx => Bool.noConfusion hx),
          hf]

/-- One `re.sub` pass with a word-only pattern equals the single-pass
whole-token mapping with that pattern alone. -/
theorem subWordAux_eq_mapTokens (k0 : Char) (ks r : List Char)
    (hk0 : isWordChar k0 = true) (hks : ∀ c ∈ ks, isWordChar c = true) :
    ∀ (n : Nat) (s : List Char), s.length ≤ n →
      subWordAux k0 ks r 0 false s = mapTokens [(k0 :: ks, r)] s := by
  intro n
  induction n with
  | zero =>
      intro s hs
      rw [List.length_eq_zero.mp (Nat.le_zero.mp hs)]
      rfl
  | succ n ih =>
      intro s hs
      cases s with
      | nil => rfl
      | cons c t =>
          by_cases hc : isWordChar c = true
          · by_cases hmatch : (decide (c = k0) && canMatch ks t) = true
            · have hmatch2 := hmatch
              rw [Bool.and_eq_true] at hmatch2
              obtain ⟨hck, hcm⟩ := hmatch2
              have hc0 : c = k0 := of_decide_eq_true hck
              obtain ⟨rest, htr, hbrest⟩ := (canMatch_iff hks t).mp hcm
              have hrest_len : rest.length ≤ n := by
                have h1 : t.length ≤ n := Nat.le_of_succ_le_succ hs
                have h2 : rest.length ≤ t.length := by
                  rw [htr, List.length_append]
                  exact Nat.le_add_left _ _
                exact Nat.le_trans h2 h1
              have hskip : subWordAux k0 ks r ks.length true t =
                  subWordAux k0 ks r 0 true rest := by
                cases hkse : ks with
                | nil =>
                    rw [hkse, List.nil_append] at htr
                    rw [htr]
                    rfl
                | cons y u =>
                    rw [hkse] at htr
                    rw [htr]
                    exact subWordAux_discard k0 (y :: u) r (y :: u) true rest
                      (fun hx => List.noConfusion hx)
              have htrue : subWordAux k0 ks r 0 true rest =
                  subWordAux k0 ks r 0 false rest := by
                rw [subWordAux_state_true k0 ks r hk0 rest,
                  takeWhile_eq_nil_of_boundary hbrest,
                  dropWhile_eq_self_of_boundary hbrest, List.nil_append]
              have hdecomp : (c :: t : List Char) = (k0 :: ks) ++ rest := by
                rw [hc0, htr, List.cons_append]
              rw [subWordAux_false_cons, if_pos hmatch, hskip, htrue,
                ih rest hrest_len, hdecomp,
                mapTokens_run [(k0 :: ks, r)] (fun hx => List.noConfusion hx)
                  (by
                    intro d hd
                    rcases List.mem_cons.mp hd with rfl | hd2
                    · exact hk0
                    · exact hks d hd2) hbrest,
                lookupRepl, if_pos rfl]
            · have hdecomp : (c :: t : List Char) =
                  (c :: List.takeWhile isWordChar t) ++
                    List.dropWhile isWordChar t := by
                rw [List.cons_append, List.takeWhile_append_dropWhile]
              have hwall : ∀ d ∈ c :: List.takeWhile isWordChar t,
                  isWordChar d = true := by
                intro d hd
                rcases List.mem_cons.mp hd with rfl | hd2
                · exact hc
                · exact mem_takeWhile_word d hd2
              have hlen : (List.dropWhile isWordChar t).length ≤ n :=
                Nat.le_trans (length_dropWhile_word_le t)
                  (Nat.le_of_succ_le_succ hs)
              have hwk : (c :: List.takeWhile isWordChar t) ≠ k0 :: ks := by
                intro he
                injection he with he1 he2
                have hcm2 : canMatch ks t = true := by
                  refine (canMatch_iff hks t).mpr
                    ⟨List.dropWhile isWordChar t, ?_, boundary_dropWhile t⟩
                  rw [← he2, List.takeWhile_append_dropWhile]
                apply hmatch
                rw [decide_eq_true he1, hcm2, Bool.and_self]
              rw [subWordAux_false_cons, if_neg hmatch, hc,
                subWordAux_state_true k0 ks r hk0 t, ih _ hlen, hdecomp,
                mapTokens_run [(k0 :: ks, r)] (fun hx => List.noConfusion hx)
                  hwall (boundary_dropWhile t),
                lookupRepl, if_neg hwk, lookupRepl, List.cons_append]
          · have hf : isWordChar c = false := Bool.eq_false_iff.mpr hc
            have hck : (decide (c = k0) && canMatch ks t) = false := by
              have hd : decide (c = k0) = false := by
                rw [decide_eq_false_iff_not]
                intro he
                rw [he, hk0] at hf
                exact Bool.noConfusion hf
              rw [hd, Bool.false_and]
            rw [subWordAux_false_cons,
              if_neg (by rw [hck]; exact fun hx => Bool.noConfusion hx), hf,
              ih t (Nat.le_of_succ_le_succ hs), mapTokens_sep _ hf]


/-- A lone word token maps through the table lookup. -/
theorem mapTokens_single (tb : List (List Char × List Char)) {w : List Char}
    (hne : w ≠ []) (hw : ∀ c ∈ w, isWordChar c = true) :
    mapTokens tb w = lookupRepl tb w := by
  have := @mapTokens_run tb w [] hne hw rfl
  rw [List.append_nil] at this
  rw [this]
  rw [show mapTokens tb [] = [] from rfl, List.append_nil]

/-- The token-wise pass preserves boundaries. -/
theorem boundary_mapTokens (tb : List (List Char × List Char)) {rest : List Char}
    (hb : boundary rest = true) : boundary (mapTokens tb rest) = true := by
  cases rest with
  | nil => rfl
  | cons d t =>
      rw [boundary] at hb
      have hd : isWordChar d = false := by simpa using hb
      rw [mapTokens_sep tb hd, boundary, hd]
      rfl

/-- Applying the remaining table after one single-pattern pass equals
one pass with the extended table, provided the replacement is fixed by
the remaining table. -/
theorem mapTokens_compose (k r : List Char) (tb : List (List Char × List Char))
    (hr : mapTokens tb r = r) :
    ∀ (n : Nat) (s : List Char), s.length ≤ n →
      mapTokens tb (mapTokens [(k, r)] s) = mapTokens ((k, r) :: tb) s := by
  intro n
  induction n with
  | zero =>
      intro s hs
      rw [List.length_eq_zero.mp (Nat.le_zero.mp hs)]
      rfl
  | succ n ih =>
      intro s hs
      cases s with
      | nil => rfl
      | cons c t =>
          by_cases hc : isWordChar c = true
          · have hdecomp : (c :: t : List Char) =
                (c :: List.takeWhile isWordChar t) ++
                  List.dropWhile isWordChar t := by
              rw [List.cons_append, List.takeWhile_append_dropWhile]
            have hwall : ∀ d ∈ c :: List.takeWhile isWordChar t,
                isWordChar d = true := by
              intro d hd
              rcases List.mem_cons.mp hd with rfl | hd2
              · exact hc
              · exact mem_takeWhile_word d hd2
            have hlen : (List.dropWhile isWordChar t).length ≤ n :=
              Nat.le_trans (length_dropWhile_word_le t)
                (Nat.le_of_succ_le_succ hs)
            have hwne : (c :: List.takeWhile isWordChar t : List Char) ≠ [] :=
              fun hx => List.noConfusion hx
            have hbd := boundary_dropWhile t
            rw [hdecomp, mapTokens_run [(k, r)] hwne hwall hbd,
              mapTokens_append tb
                (lookupRepl [(k, r)] (c :: List.takeWhile isWordChar t)).length
                _ _ (Nat.le_refl _)
                (boundary_mapTokens [(k, r)] hbd),
              ih _ hlen,
              mapTokens_run ((k, r) :: tb) hwne hwall hbd]
            congr 1
            by_cases hwk : (c :: List.takeWhile isWordChar t : List Char) = k
            · rw [show lookupRepl [(k, r)] (c :: List.takeWhile isWordChar t) =
                  if (c :: List.takeWhile isWordChar t : List Char) = k then r
                  else lookupRepl [] (c :: List.takeWhile isWordChar t) from rfl,
                if_pos hwk, hr,
                show lookupRepl ((k, r) :: tb) (c :: List.takeWhile isWordChar t) =
                  if (c :: List.takeWhile isWordChar t : List Char) = k then r
                  else lookupRepl tb (c :: List.takeWhile isWordChar t) from rfl,
                if_pos hwk]
            · rw [show lookupRepl [(k, r)] (c :: List.takeWhile isWordChar t) =
                  if (c :: List.takeWhile isWordChar t : List Char) = k then r
                  else lookupRepl [] (c :: List.takeWhile isWordChar t) from rfl,
                if_neg hwk,
                show lookupRepl [] (c :: List.takeWhile isWordChar t) =
                  c :: List.takeWhile isWordChar t from rfl,
                mapTokens_single tb hwne hwall,
                show lookupRepl ((k, r) :: tb) (c :: List.takeWhile isWordChar t) =
                  if (c :: List.takeWhile isWordChar t : List Char) = k then r
                  else lookupRepl tb (c :: List.takeWhile isWordChar t) from rfl,
                if_neg hwk]
          · have hf : isWordChar c = false := Bool.eq_false_iff.mpr hc
            rw [mapTokens_sep [(k, r)] hf, mapTokens_sep tb hf,
              ih t (Nat.le_of_succ_le_succ hs), mapTokens_sep ((k, r) :: tb) hf]

/-- Sequentially applying every `re.sub` pattern of a good table equals
the single token-wise pass over that table. -/
theorem fold_subWord_eq_mapTokens :
    ∀ (tb : List (List Char × List Char)), goodTable tb = true →
      ∀ s, tb.foldl (fun t p => subWord p.1 p.2 t) s = mapTokens tb s := by
  intro tb
  induction tb with
  | nil =>
      intro _ s
      rw [List.foldl_nil, mapTokens_nil_table s.length s (Nat.le_refl _)]
  | cons p tb ih =>
      obtain ⟨k, r⟩ := p
      intro hg s
      rw [goodTable] at hg
      simp only [Bool.and_eq_true] at hg
      obtain ⟨⟨⟨h1, h2⟩, h3⟩, h4⟩ := hg
      have hkne : k ≠ [] := by
        intro hx
        rw [hx] at h1
        exact Bool.noConfusion h1
      have hkw : ∀ c ∈ k, isWordChar c = true := List.all_eq_true.mp h2
      have hrfix : mapTokens tb r = r := by
        have := h3
        rw [beq_iff_eq] at this
        exact this
      rw [List.foldl_cons, ih h4 (subWord k r s)]
      cases k with
      | nil => exact absurd rfl hkne
      | cons k0 ks =>
          rw [show subWord (k0 :: ks) r s = subWordAux k0 ks r 0 false s from rfl,
            subWordAux_eq_mapTokens k0 ks r
              (hkw k0 (List.mem_cons_self k0 ks))
              (fun c hc => hkw c (List.mem_cons_of_mem k0 hc)) s.length s
              (Nat.le_refl _)]
          exact mapTokens_compose (k0 :: ks) r tb hrfix s.length s
            (Nat.le_refl _)


/-- `MATH_FUNCTION_REPLACEMENTS` is a good table: word-only keys and
replacements that later patterns leave untouched. -/
theorem goodTable_MATH_FUNCTION_REPLACEMENTS :
    goodTable MATH_FUNCTION_REPLACEMENTS = true := by decide

/-- C5: formula preparation rewrites exactly the whole-token occurrences
of the math-notation names — the sequential word-boundary `re.sub`
passes over `MATH_FUNCTION_REPLACEMENTS` coincide, on every string, with
one pass that maps each maximal word-character run through the table and
leaves everything else (including names embedded in longer identifiers)
unchanged; the rewritten text is exactly what the evaluator retains as
`equation_str`, and in particular `ln(x)` becomes `np.log(x)` while the
`sin` inside `using` is untouched. -/
theorem math_tokens_rewritten_whole_tokens_only :
    (∀ (formula : String) (e : Expr) (names : List String)
        (ev : CustomFunctionEvaluator),
      mkCustomFunctionEvaluator formula e names = .ok ev →
      ev.equation_str = prepare_formula formula) ∧
    (∀ s : String, prepare_formula s =
      String.mk (mapTokens MATH_FUNCTION_REPLACEMENTS s.toList)) ∧
    prepare_formula "a*ln(x) + using" = "a*np.log(x) + using" := by
  refine ⟨?_, ?_, ?_⟩
  · intro formula e names ev hev
    exact (mkCustomFunctionEvaluator_ok formula e names ev hev).2.1
  · intro s
    rw [prepare_formula, fold_subWord_eq_mapTokens MATH_FUNCTION_REPLACEMENTS
      goodTable_MATH_FUNCTION_REPLACEMENTS]
  · rfl

/-- Witness for C5: the evaluator built from `"a*x + b"` retains the
prepared formula, and the rewriting of a concrete formula agrees with
the whole-token mapping. -/
theorem math_tokens_rewritten_whole_tokens_only_witness :
    linearEvaluator.equation_str = prepare_formula "a*x + b" ∧
    prepare_formula "ln(x)*using" =
      String.mk (mapTokens MATH_FUNCTION_REPLACEMENTS ("ln(x)*using").toList) :=
  ⟨math_tokens_rewritten_whole_tokens_only.1 "a*x + b" linearExpr ["a", "b"]
      linearEvaluator rfl,
   math_tokens_rewritten_whole_tokens_only.2.1 "ln(x)*using"⟩

end RegresionLab
